/-
Verification of the yrs-persistence document store against its specification.

The development shallowly embeds the Rust sources:
  * `src/src/lib.rs`   — the `LmdbPersistence` facade (flush_doc, insert_doc_raw_v1,
                         load_doc, get_state_vector, push_update, get_diff, clear_doc,
                         get_meta, insert_meta, remove_meta, DocsNameIter, MetadataIter);
  * `src/src/lmdb.rs`  — the LMDB adapter of the `KVStore` backend contract
                         (get, upsert, remove, remove_range, iter_range);
  * `src/yrs-rocksdb/src/lib.rs` — the RocksDB adapter of the same contract.

The embedded key-value store is a list of (key, value) byte-string pairs kept in
strictly ascending byte-lexicographic key order, which is exactly the observable
state of an ordered embedded engine.  The lmdb_rs `keyrange(start, end)` primitive
iterates keys of the closed interval [start, end] (its documented behaviour, and
the behaviour the defensive `key > end` checks in the source guard); the RocksDB
`set_iterate_upper_bound` primitive is exclusive of the upper bound.

Parts of the repository referenced by the sources but absent from them (the key
codec `keys.rs`, and the inner helpers `get_or_create_oid`, `load_doc`,
`flush_doc`, `insert_inner_v1`, `delete_updates` of the old `lmdb` module, plus
the opaque yrs CRDT runtime) are modelled from the specification; each such
definition carries a doc comment starting with `Modelled from the spec:`.
-/

import Mathlib

namespace YrsKv

/-! ### Byte-lexicographic ordering of keys

Keys are byte strings; the embedded engine stores entries in ascending
byte-lexicographic order.  A byte is modelled as a `Nat` (well-formed keys only
use values below 256). -/

/-- Strict byte-lexicographic order on byte strings: `[] < x :: _`, and
`x :: xs < y :: ys` iff `x < y` or (`x = y` and `xs < ys`). -/
def lexLt : List Nat → List Nat → Bool
  | [], [] => false
  | [], _ :: _ => true
  | _ :: _, [] => false
  | a :: as, b :: bs => if a < b then true else if b < a then false else lexLt as bs

/-- Non-strict byte-lexicographic order, as the negation of the converse strict one. -/
def lexLe (a b : List Nat) : Bool := ! lexLt b a

theorem lexLt_irrefl (a : List Nat) : lexLt a a = false := by
  induction a with
  | nil => rfl
  | cons x xs ih => simp [lexLt, ih]

theorem lexLt_cons_eq (x y : Nat) (xs ys : List Nat) :
    lexLt (x :: xs) (y :: ys) =
      (if x < y then true else if y < x then false else lexLt xs ys) := rfl

theorem lexLt_trans {a b c : List Nat} (hab : lexLt a b = true) (hbc : lexLt b c = true) :
    lexLt a c = true := by
  induction a generalizing b c with
  | nil =>
    cases b with
    | nil => exact absurd hab (by simp [lexLt])
    | cons y ys =>
      cases c with
      | nil => exact absurd hbc (by simp [lexLt])
      | cons z zs => rfl
  | cons x xs ih =>
    cases b with
    | nil => exact absurd hab (by simp [lexLt])
    | cons y ys =>
      cases c with
      | nil => exact absurd hbc (by simp [lexLt])
      | cons z zs =>
        rw [lexLt_cons_eq] at hab hbc ⊢
        rcases Nat.lt_trichotomy x y with hxy | hxy | hxy
        · rcases Nat.lt_trichotomy y z with hyz | hyz | hyz
          · rw [if_pos (Nat.lt_trans hxy hyz)]
          · subst hyz
            rw [if_pos hxy]
          · rw [if_neg (Nat.lt_asymm hyz), if_pos hyz] at hbc
            exact absurd hbc (by simp)
        · subst hxy
          rw [if_neg (Nat.lt_irrefl x), if_neg (Nat.lt_irrefl x)] at hab
          rcases Nat.lt_trichotomy x z with hxz | hxz | hxz
          · rw [if_pos hxz]
          · subst hxz
            rw [if_neg (Nat.lt_irrefl x), if_neg (Nat.lt_irrefl x)] at hbc ⊢
            exact ih hab hbc
          · rw [if_neg (Nat.lt_asymm hxz), if_pos hxz] at hbc
            exact absurd hbc (by simp)
        · rw [if_neg (Nat.lt_asymm hxy), if_pos hxy] at hab
          exact absurd hab (by simp)

theorem lexLt_asymm {a b : List Nat} (h : lexLt a b = true) : lexLt b a = false := by
  by_contra hba
  have hba' : lexLt b a = true := by
    cases hb : lexLt b a with
    | false => exact absurd hb hba
    | true => rfl
  have := lexLt_trans h hba'
  rw [lexLt_irrefl] at this
  exact Bool.false_ne_true this

theorem lexLt_antisymm {a b : List Nat} (hab : lexLt a b = false) (hba : lexLt b a = false) :
    a = b := by
  induction a generalizing b with
  | nil =>
    cases b with
    | nil => rfl
    | cons y ys => simp [lexLt] at hab
  | cons x xs ih =>
    cases b with
    | nil => simp [lexLt] at hba
    | cons y ys =>
      rw [lexLt_cons_eq] at hab hba
      rcases Nat.lt_trichotomy x y with hxy | hxy | hxy
      · rw [if_pos hxy] at hab
        exact absurd hab (by simp)
      · subst hxy
        rw [if_neg (Nat.lt_irrefl x), if_neg (Nat.lt_irrefl x)] at hab hba
        rw [ih hab hba]
      · rw [if_pos hxy] at hba
        exact absurd hba (by simp)

theorem lexLt_total (a b : List Nat) :
    lexLt a b = true ∨ lexLt b a = true ∨ a = b := by
  cases hab : lexLt a b with
  | true => exact Or.inl rfl
  | false =>
    cases hba : lexLt b a with
    | true => exact Or.inr (Or.inl rfl)
    | false => exact Or.inr (Or.inr (lexLt_antisymm hab hba))

theorem lexLt_append_left (c a b : List Nat) :
    lexLt (c ++ a) (c ++ b) = lexLt a b := by
  induction c with
  | nil => rfl
  | cons x xs ih => simp [lexLt, ih]

/-- Appending a terminator byte `0` to both sides preserves the strict order. -/
theorem lexLt_append_zero (a b : List Nat) :
    lexLt (a ++ [0]) (b ++ [0]) = lexLt a b := by
  induction a generalizing b with
  | nil =>
    cases b with
    | nil => simp [lexLt]
    | cons y ys =>
      cases y with
      | zero =>
        simp only [List.nil_append, List.cons_append, lexLt, Nat.lt_irrefl, if_false]
        cases ys <;> simp [lexLt]
      | succ n => simp [lexLt]
  | cons x xs ih =>
    cases b with
    | nil =>
      cases x with
      | zero =>
        simp only [List.cons_append, List.nil_append, lexLt, Nat.lt_irrefl, if_false]
        cases xs <;> simp [lexLt]
      | succ n => simp [lexLt]
    | cons y ys => simp [lexLt, ih]

/-- If two lists have the same length and differ, the order of any extensions is
decided by the order of the lists themselves. -/
theorem lexLt_append_of_ne {a b : List Nat} (hlen : a.length = b.length) (hne : a ≠ b)
    (x y : List Nat) : lexLt (a ++ x) (b ++ y) = lexLt a b := by
  induction a generalizing b with
  | nil =>
    cases b with
    | nil => exact absurd rfl hne
    | cons z zs => simp at hlen
  | cons p ps ih =>
    cases b with
    | nil => simp at hlen
    | cons q qs =>
      simp only [List.cons_append]
      rw [lexLt_cons_eq, lexLt_cons_eq]
      rcases Nat.lt_trichotomy p q with hpq | hpq | hpq
      · rw [if_pos hpq, if_pos hpq]
      · subst hpq
        rw [if_neg (Nat.lt_irrefl p), if_neg (Nat.lt_irrefl p),
          if_neg (Nat.lt_irrefl p), if_neg (Nat.lt_irrefl p)]
        have hlen' : ps.length = qs.length := by simpa using hlen
        have hne' : ps ≠ qs := fun h => hne (by rw [h])
        exact ih hlen' hne'
      · rw [if_neg (Nat.lt_asymm hpq), if_pos hpq, if_neg (Nat.lt_asymm hpq), if_pos hpq]

/-! ### The embedded ordered key-value store

The observable state of the embedded engine: a list of (key, value) pairs kept
in strictly ascending byte-lexicographic key order. -/

abbrev Key := List Nat
abbrev Val := List Nat
abbrev Store := List (Key × Val)

/-- Point lookup (`get`). -/
def sget : Store → Key → Option Val
  | [], _ => none
  | e :: rest, k => if e.1 = k then some e.2 else sget rest k

/-- Write a key, keeping the ascending key order (`put`/`set`). -/
def sput : Store → Key → Val → Store
  | [], k, v => [(k, v)]
  | e :: rest, k, v =>
    if lexLt k e.1 then (k, v) :: e :: rest
    else if lexLt e.1 k then e :: sput rest k v
    else (k, v) :: rest

/-- Delete a key (`del`). -/
def sdel (s : Store) (k : Key) : Store := s.filter (fun e => e.1 ≠ k)

/-- Membership of the closed key interval `[lo, hi]`. -/
def inRangeIncl (lo hi k : Key) : Bool := lexLe lo k && lexLe k hi

/-- lmdb_rs `keyrange(start, end)`: ascending iteration over the keys of the
closed interval `[start, end]` (both bounds inclusive). -/
def keyrange (lo hi : Key) (s : Store) : Store :=
  s.filter (fun e => inRangeIncl lo hi e.1)

/-- Store invariant: entries are sorted in strictly ascending key order
(hence keys are unique). -/
abbrev SortedStore (s : Store) : Prop := s.Pairwise (fun a b => lexLt a.1 b.1 = true)

/-- Number of entries stored under a key. -/
def countKey (s : Store) (k : Key) : Nat := (s.filter (fun e => e.1 = k)).length

theorem lexLt_ne {a b : List Nat} (h : lexLt a b = true) : a ≠ b := by
  intro hab
  rw [hab, lexLt_irrefl] at h
  exact Bool.false_ne_true h

theorem sget_sput_self (s : Store) (k : Key) (v : Val) : sget (sput s k v) k = some v := by
  induction s with
  | nil => simp [sput, sget]
  | cons e rest ih =>
    obtain ⟨ek, ev⟩ := e
    cases h1 : lexLt k ek with
    | true => simp [sput, h1, sget]
    | false =>
      cases h2 : lexLt ek k with
      | true =>
        have hne : ek ≠ k := lexLt_ne h2
        simp [sput, h1, h2, sget, hne, ih]
      | false => simp [sput, h1, h2, sget]

theorem sget_sput_ne (s : Store) (k k' : Key) (v : Val) (h : k' ≠ k) :
    sget (sput s k v) k' = sget s k' := by
  have hkk : k ≠ k' := fun hh => h hh.symm
  induction s with
  | nil => simp [sput, sget, hkk]
  | cons e rest ih =>
    obtain ⟨ek, ev⟩ := e
    cases h1 : lexLt k ek with
    | true => simp [sput, h1, sget, hkk]
    | false =>
      cases h2 : lexLt ek k with
      | true => simp [sput, h1, h2, sget, ih]
      | false =>
        have hek : ek = k := lexLt_antisymm h2 h1
        subst hek
        simp [sput, h1, sget, hkk, fun hh : ek = k' => h hh.symm]

theorem sget_eq_none_iff (s : Store) (k : Key) :
    sget s k = none ↔ ∀ v, (k, v) ∉ s := by
  induction s with
  | nil => simp [sget]
  | cons e rest ih =>
    obtain ⟨ek, ev⟩ := e
    by_cases he : ek = k
    · subst he
      constructor
      · intro h
        simp [sget] at h
      · intro h
        exact absurd (List.mem_cons_self (ek, ev) rest) (h ev)
    · have hne : (ek, ev).1 = k → False := fun hh => he hh
      simp only [sget, if_neg hne, List.mem_cons]
      rw [ih]
      constructor
      · intro h v hv
        rcases hv with hv | hv
        · exact he (congrArg Prod.fst hv).symm
        · exact h v hv
      · intro h v hv
        exact h v (Or.inr hv)

theorem mem_of_sget {s : Store} {k : Key} {v : Val} (h : sget s k = some v) : (k, v) ∈ s := by
  induction s with
  | nil => simp [sget] at h
  | cons e rest ih =>
    obtain ⟨ek, ev⟩ := e
    by_cases he : ek = k
    · subst he
      simp only [sget, if_pos rfl] at h
      injection h with h
      rw [← h]
      exact List.mem_cons_self (ek, ev) rest
    · have hne : (ek, ev).1 = k → False := fun hh => he hh
      simp only [sget, if_neg hne] at h
      exact List.mem_cons_of_mem _ (ih h)

theorem sget_of_mem {s : Store} (hs : SortedStore s) {k : Key} {v : Val} (h : (k, v) ∈ s) :
    sget s k = some v := by
  induction s with
  | nil => simp at h
  | cons e rest ih =>
    have hcons := List.pairwise_cons.mp hs
    rcases List.mem_cons.mp h with h | h
    · rw [← h]
      simp [sget]
    · have hlt : lexLt e.1 k = true := hcons.1 (k, v) h
      have hne : e.1 = k → False := fun hh => lexLt_ne hlt hh
      simp [sget, if_neg hne, ih hcons.2 h]

/-- Looking a key up after filtering by a predicate on keys. -/
theorem sget_filterKey (s : Store) (p : Key → Bool) (k : Key) :
    sget (s.filter (fun e => p e.1)) k = if p k then sget s k else none := by
  induction s with
  | nil => simp [sget]
  | cons e rest ih =>
    obtain ⟨ek, ev⟩ := e
    by_cases he : ek = k
    · subst he
      cases hp : p ek with
      | true => simp [List.filter_cons, hp, sget, ih]
      | false => simp [List.filter_cons, hp, sget, ih]
    · have hne : (ek, ev).1 = k → False := fun hh => he hh
      cases hp : p ek with
      | true => simp [List.filter_cons, hp, sget, if_neg hne, ih]
      | false => simp [List.filter_cons, hp, sget, if_neg hne, ih]

theorem sget_sdel_self (s : Store) (k : Key) : sget (sdel s k) k = none := by
  induction s with
  | nil => simp [sdel, sget]
  | cons e rest ih =>
    obtain ⟨ek, ev⟩ := e
    by_cases he : ek = k
    · subst he
      simpa [sdel, List.filter_cons, decide_not] using ih
    · have hne : (ek, ev).1 = k → False := fun hh => he hh
      simp only [sdel, List.filter_cons, decide_not] at *
      simp [he, sget, if_neg hne, ih]

theorem sget_sdel_ne (s : Store) (k k' : Key) (h : k' ≠ k) :
    sget (sdel s k) k' = sget s k' := by
  induction s with
  | nil => simp [sdel, sget]
  | cons e rest ih =>
    obtain ⟨ek, ev⟩ := e
    by_cases he : ek = k
    · subst he
      have hne : (ek, ev).1 = k' → False := fun hh => h hh.symm
      simp only [sdel, List.filter_cons, decide_not] at *
      simp [sget, if_neg hne, ih]
    · simp only [sdel, List.filter_cons, decide_not] at *
      by_cases he2 : ek = k'
      · subst he2
        simp [he, sget, ih]
      · have hne2 : (ek, ev).1 = k' → False := fun hh => he2 hh
        simp [he, sget, if_neg hne2, ih]

theorem mem_sput {s : Store} {k : Key} {v : Val} {e : Key × Val} (h : e ∈ sput s k v) :
    e = (k, v) ∨ e ∈ s := by
  induction s with
  | nil => simp [sput] at h; exact Or.inl h
  | cons f rest ih =>
    cases h1 : lexLt k f.1 with
    | true =>
      simp only [sput, h1, if_true, List.mem_cons] at h
      rcases h with h | h
      · exact Or.inl h
      · exact Or.inr (List.mem_cons.mpr h)
    | false =>
      cases h2 : lexLt f.1 k with
      | true =>
        simp only [sput, h1, h2, Bool.false_eq_true, if_false, if_true, List.mem_cons] at h
        rcases h with h | h
        · exact Or.inr (List.mem_cons.mpr (Or.inl h))
        · rcases ih h with h | h
          · exact Or.inl h
          · exact Or.inr (List.mem_cons.mpr (Or.inr h))
      | false =>
        simp only [sput, h1, h2, Bool.false_eq_true, if_false, List.mem_cons] at h
        rcases h with h | h
        · exact Or.inl h
        · exact Or.inr (List.mem_cons.mpr (Or.inr h))

theorem sorted_sput {s : Store} (hs : SortedStore s) (k : Key) (v : Val) :
    SortedStore (sput s k v) := by
  induction s with
  | nil => simp [sput]
  | cons e rest ih =>
    have hcons := List.pairwise_cons.mp hs
    cases h1 : lexLt k e.1 with
    | true =>
      simp only [sput, h1, if_true]
      refine List.pairwise_cons.mpr ⟨?_, hs⟩
      intro f hf
      rcases List.mem_cons.mp hf with hf | hf
      · rw [hf]; exact h1
      · exact lexLt_trans h1 (hcons.1 f hf)
    | false =>
      cases h2 : lexLt e.1 k with
      | true =>
        simp only [sput, h1, h2, Bool.false_eq_true, if_false, if_true]
        refine List.pairwise_cons.mpr ⟨?_, ih hcons.2⟩
        intro f hf
        rcases mem_sput hf with hf | hf
        · rw [hf]; exact h2
        · exact hcons.1 f hf
      | false =>
        have hek : e.1 = k := lexLt_antisymm h2 h1
        simp only [sput, h1, h2, Bool.false_eq_true, if_false]
        refine List.pairwise_cons.mpr ⟨?_, hcons.2⟩
        intro f hf
        have := hcons.1 f hf
        rwa [hek] at this

theorem sorted_filter {s : Store} (hs : SortedStore s) (p : Key × Val → Bool) :
    SortedStore (s.filter p) := List.Pairwise.filter p hs

theorem sorted_sdel {s : Store} (hs : SortedStore s) (k : Key) : SortedStore (sdel s k) :=
  sorted_filter hs _

theorem countKey_le_one {s : Store} (hs : SortedStore s) (k : Key) : countKey s k ≤ 1 := by
  induction s with
  | nil => simp [countKey]
  | cons e rest ih =>
    have hcons := List.pairwise_cons.mp hs
    by_cases he : e.1 = k
    · have hnone : rest.filter (fun f => decide (f.1 = k)) = [] := by
        rw [List.filter_eq_nil_iff]
        intro f hf
        have hlt := hcons.1 f hf
        rw [he] at hlt
        simp only [decide_eq_true_eq]
        intro hfk
        exact lexLt_ne hlt (by rw [hfk])
      simp [countKey, List.filter_cons, he, hnone]
    · have := ih hcons.2
      simpa [countKey, List.filter_cons, he] using this

theorem countKey_eq_one {s : Store} (hs : SortedStore s) {k : Key} {v : Val}
    (h : sget s k = some v) : countKey s k = 1 := by
  have hmem : (k, v) ∈ s := mem_of_sget h
  have hpos : 0 < countKey s k := by
    have hm : (k, v) ∈ s.filter (fun e => decide (e.1 = k)) :=
      List.mem_filter.mpr ⟨hmem, by simp⟩
    have := List.length_pos_of_mem hm
    simpa [countKey] using this
  have hle := countKey_le_one hs k
  omega

/-! ### Key codec

Modelled from the spec: the key codec module `keys.rs` is referenced by
`src/src/lib.rs` but absent from the sources.  Layout per spec section 4.1 and
the comments in `src/src/lib.rs` (`01{oid}1{clock:4}0`, doc bounds
`[0,1,..oid,0]..[0,1,..oid,255]`): version byte `V1 = 0`; the name namespace tag
sorts before the document namespace tag; OIDs and update clocks are 4-byte
big-endian; record subtypes are SNAPSHOT, STATE_VECTOR, UPDATE, META in that
order; keys end with a `0` terminator byte. -/

/-- 4-byte big-endian encoding of a 32-bit value (wraps above `2^32`). -/
def be4 (n : Nat) : List Nat :=
  [n / 16777216 % 256, n / 65536 % 256, n / 256 % 256, n % 256]

/-- Decode a 4-byte big-endian value (`u32::from_be_bytes`); keys and values in
well-formed stores always carry exactly 4 bytes here. -/
def be4ToNat : List Nat -> Nat
  | [a, b, c, d] => ((a * 256 + b) * 256 + c) * 256 + d
  | _ => 0

/-- Name namespace key: `[V1, NS_NAME] ++ name ++ [terminator]`. -/
def keyOid (name : List Nat) : Key := 0 :: 0 :: (name ++ [0])

/-- Snapshot record key: `[V1, NS_DOC] ++ oid ++ [SNAPSHOT, terminator]`. -/
def keySnapshot (oid : Nat) : Key := 0 :: 1 :: (be4 oid ++ [1, 0])

/-- State-vector record key: `[V1, NS_DOC] ++ oid ++ [STATE_VECTOR, terminator]`. -/
def keyStateVector (oid : Nat) : Key := 0 :: 1 :: (be4 oid ++ [2, 0])

/-- Update-log record key: `[V1, NS_DOC] ++ oid ++ [UPDATE] ++ clock ++ [terminator]`. -/
def keyUpdate (oid clock : Nat) : Key := 0 :: 1 :: (be4 oid ++ 3 :: (be4 clock ++ [0]))

/-- Metadata record key: `[V1, NS_DOC] ++ oid ++ [META] ++ meta_key ++ [terminator]`. -/
def keyMeta (oid : Nat) (mk : List Nat) : Key := 0 :: 1 :: (be4 oid ++ 4 :: (mk ++ [0]))

/-- Lower bound of all records of one document: `[V1, NS_DOC] ++ oid ++ [0]`. -/
def keyDocStart (oid : Nat) : Key := 0 :: 1 :: (be4 oid ++ [0])

/-- Upper bound of all records of one document: `[V1, NS_DOC] ++ oid ++ [255]`. -/
def keyDocEnd (oid : Nat) : Key := 0 :: 1 :: (be4 oid ++ [255])

/-- Lower bound of one document's metadata records. -/
def keyMetaStart (oid : Nat) : Key := 0 :: 1 :: (be4 oid ++ [4, 0])

/-- Upper bound of one document's metadata records. -/
def keyMetaEnd (oid : Nat) : Key := 0 :: 1 :: (be4 oid ++ [4, 255])

/-- Extract the document name from a name-namespace key (fixed-offset slicing). -/
def docOidName (k : Key) : List Nat := (k.drop 2).dropLast

/-- Extract the meta key from a META record key (fixed-offset slicing). -/
def docMetaName (k : Key) : List Nat := (k.drop 7).dropLast

theorem be4_length (n : Nat) : (be4 n).length = 4 := rfl

theorem be4_bytes_lt (n : Nat) : (be4 n).all (fun b => b < 256) = true := by
  simp only [be4, List.all_cons, List.all_nil, Bool.and_true, Bool.and_eq_true,
    decide_eq_true_eq]
  refine ⟨Nat.mod_lt _ (by norm_num), Nat.mod_lt _ (by norm_num),
    Nat.mod_lt _ (by norm_num), Nat.mod_lt _ (by norm_num)⟩

theorem be4ToNat_be4 (n : Nat) (h : n < 4294967296) : be4ToNat (be4 n) = n := by
  simp only [be4, be4ToNat]
  omega

theorem be4_be4ToNat (b0 b1 b2 b3 : Nat) (h0 : b0 < 256) (h1 : b1 < 256) (h2 : b2 < 256)
    (h3 : b3 < 256) : be4 (be4ToNat [b0, b1, b2, b3]) = [b0, b1, b2, b3] := by
  simp only [be4, be4ToNat, List.cons.injEq, and_true]
  omega

theorem be4ToNat_lt (b0 b1 b2 b3 : Nat) (h0 : b0 < 256) (h1 : b1 < 256) (h2 : b2 < 256)
    (h3 : b3 < 256) : be4ToNat [b0, b1, b2, b3] < 4294967296 := by
  simp only [be4ToNat]
  omega

/-- Big-endian 4-byte encoding is monotone for the byte-lexicographic order. -/
theorem lexLt_be4 (a b : Nat) (ha : a < 4294967296) (hb : b < 4294967296) :
    lexLt (be4 a) (be4 b) = decide (a < b) := by
  simp only [be4]
  rw [lexLt_cons_eq, lexLt_cons_eq, lexLt_cons_eq, lexLt_cons_eq]
  simp only [lexLt]
  split_ifs <;> simp <;> omega

theorem be4_inj {a b : Nat} (ha : a < 4294967296) (hb : b < 4294967296)
    (h : be4 a = be4 b) : a = b := by
  have := congrArg be4ToNat h
  rwa [be4ToNat_be4 a ha, be4ToNat_be4 b hb] at this

/-! ### CRDT runtime model

Modelled from the spec: the yrs CRDT runtime is an external collaborator
(section 1) consumed only through `decode`/`apply`, `encode_diff`,
`encode_full_state` and `state_vector` (section 6). -/

/-- Modelled from the spec: a CRDT document, as the sequence of encoded update
blobs applied to it. -/
abbrev DocM := List (List Nat)

/-- Modelled from the spec: `apply(doc_txn, decode(bytes))`. -/
def applyUpdate (d : DocM) (u : List Nat) : DocM := d ++ [u]

/-- Length-prefixed concatenation of a document's applied updates; the concrete
stand-in for the CRDT runtime's opaque encodings. -/
def encodeList (d : DocM) : List Nat := d.foldr (fun u acc => u.length :: (u ++ acc)) []

/-- Modelled from the spec: `encode_full_state(doc, empty_state_vector)`. -/
def encodeFullState (d : DocM) : List Nat := 0 :: encodeList d

/-- Modelled from the spec: `state_vector(doc)`. -/
def stateVectorOf (d : DocM) : List Nat := 1 :: encodeList d

/-- Modelled from the spec: `encode_diff(doc, state_vector)`. -/
def encodeDiffM (d : DocM) (sv : List Nat) : List Nat := 2 :: (sv ++ encodeFullState d)

/-! ### Backend adapter operations -/

/-- `KVStore::upsert` of the LMDB adapter (src/src/lmdb.rs 45-49): remove the
key (returning the previous value), then insert the new one. -/
def kvUpsert (s : Store) (k : Key) (v : Val) : Option Val × Store :=
  let prev := sget s k
  let s1 := match prev with
    | some _ => sdel s k
    | none => s
  (prev, sput s1 k v)

/-- The body of the LMDB `remove_range` loop (src/src/lmdb.rs 59-68 and
src/src/lib.rs 201-207): walk the keys yielded by `keyrange`, break as soon as
one exceeds `to`, delete each of the others. -/
def delLoop (hi : Key) : Store -> List (Key × Val) -> Store
  | s, [] => s
  | s, e :: rest => if lexLt hi e.1 then s else delLoop hi (sdel s e.1) rest

/-- `KVStore::remove_range` of the LMDB adapter (src/src/lmdb.rs 59-68). -/
def lmdbRemoveRange (s : Store) (lo hi : Key) : Store := delLoop hi s (keyrange lo hi s)

/-- `LmdbRange` (src/src/lmdb.rs 78-95): the `keyrange` cursor, with `next`
returning `None` as soon as a key exceeds `to`. -/
def lmdbIterRange (lo hi : Key) (s : Store) : List (Key × Val) :=
  (keyrange lo hi s).takeWhile (fun e => ! lexLt hi e.1)

/-- The RocksDB bounded scan: `set_iterate_lower_bound(from)` (inclusive) and
`set_iterate_upper_bound(to)` (exclusive). -/
def rocksKeyrange (lo hi : Key) (s : Store) : Store :=
  s.filter (fun e => lexLe lo e.1 && lexLt e.1 hi)

/-- `KVStore::remove_range` of the RocksDB adapter (yrs-rocksdb/src/lib.rs
122-134): delete every key the bounded scan yields. -/
def rocksRemoveRange (s : Store) (lo hi : Key) : Store :=
  (rocksKeyrange lo hi s).foldl (fun acc e => sdel acc e.1) s

/-- `RocksDBIter` (yrs-rocksdb/src/lib.rs 161-187): the bounded scan, with
`next` returning `None` as soon as a key is at or above `to`. -/
def rocksIterRange (lo hi : Key) (s : Store) : List (Key × Val) :=
  (rocksKeyrange lo hi s).takeWhile (fun e => lexLt e.1 hi)

/-! ### The document-store facade (src/src/lib.rs) -/

/-- `Error` (src/src/error.rs). -/
inductive Err
  | dbError
  | decodingError
  | keyError (k : List Nat)
deriving Repr, DecidableEq

instance exceptDecEq {ε α : Type} [DecidableEq ε] [DecidableEq α] :
    DecidableEq (Except ε α) := fun x y =>
  match x, y with
  | .error a, .error b =>
    if h : a = b then .isTrue (by rw [h]) else .isFalse (fun hh => by cases hh; exact h rfl)
  | .ok a, .ok b =>
    if h : a = b then .isTrue (by rw [h]) else .isFalse (fun hh => by cases hh; exact h rfl)
  | .error a, .ok b => .isFalse (fun hh => Except.noConfusion hh)
  | .ok a, .error b => .isFalse (fun hh => Except.noConfusion hh)

/-- `get_oid` — Modelled from the spec: point lookup of the name key (section
4.2); the stored 4-byte value is decoded big-endian. -/
def getOid (s : Store) (name : List Nat) : Option Nat :=
  (sget s (keyOid name)).map be4ToNat

/-- Modelled from the spec: `get_or_create_oid` (section 4.2) — lookup; if
absent, read the OID value stored at the lexicographically last entry of the
name namespace, add one (32-bit), and persist the new mapping. -/
def getOrCreateOid (s : Store) (name : List Nat) : Nat × Store :=
  match getOid s name with
  | some oid => (oid, s)
  | none =>
    let names := keyrange [0, 0] [0, 1] s
    let lastOid := match names.getLast? with
      | some e => be4ToNat e.2
      | none => 0
    let newOid := (lastOid + 1) % 4294967296
    (newOid, sput s (keyOid name) (be4 newOid))

/-- Modelled from the spec: `insert_inner_v1` (section 4.4 `insert`) — write the
Snapshot and StateVector records, leaving the update log untouched. -/
def insertInnerV1 (s : Store) (oid : Nat) (docState sv : Val) : Store :=
  sput (sput s (keySnapshot oid) docState) (keyStateVector oid) sv

/-- `insert_doc_raw_v1` (src/src/lib.rs 71-83). -/
def insert_doc_raw_v1 (s : Store) (name docState sv : List Nat) : Except Err Store :=
  let r := getOrCreateOid s name
  .ok (insertInnerV1 r.2 r.1 docState sv)

/-- The ascending update-log scan of one document:
`keyrange(key_update(oid, 0), key_update(oid, u32::MAX))`. -/
def updEntries (s : Store) (oid : Nat) : Store :=
  keyrange (keyUpdate oid 0) (keyUpdate oid 4294967295) s

/-- Modelled from the spec: the inner `load_doc` (section 4.4) — apply the
SNAPSHOT record first if present, then every UPDATE record in ascending clock
order; report whether anything was applied and whether a snapshot was. -/
def loadDocInner (s : Store) (oid : Nat) (d : DocM) : DocM × Bool × Bool :=
  let snap := sget s (keySnapshot oid)
  let d1 := match snap with
    | some blob => applyUpdate d blob
    | none => d
  let ups := updEntries s oid
  let d2 := ups.foldl (fun acc e => applyUpdate acc e.2) d1
  (d2, snap.isSome || ! ups.isEmpty, snap.isSome)

/-- `load_doc` (src/src/lib.rs 85-100): `false` for an unmapped name, otherwise
whether the inner load applied anything. -/
def load_doc (s : Store) (name : List Nat) (d : DocM) : Except Err (DocM × Bool) :=
  match getOid s name with
  | some oid =>
    let r := loadDocInner s oid d
    .ok (r.1, r.2.1)
  | none => .ok (d, false)

/-- Modelled from the spec: the inner `flush_doc` (section 4.4) — replay
snapshot-then-log into A fresh document; if nothing was applied return `None`
without a write; otherwise write the new Snapshot and StateVector and clear the
update log, returning the merged document. -/
def flushDocInner (s : Store) (oid : Nat) : Option DocM × Store :=
  let r := loadDocInner s oid []
  if r.2.1 then
    let s1 := sput s (keySnapshot oid) (encodeFullState r.1)
    let s2 := sput s1 (keyStateVector oid) (stateVectorOf r.1)
    let s3 := lmdbRemoveRange s2 (keyUpdate oid 0) (keyUpdate oid 4294967295)
    (some r.1, s3)
  else (none, s)

/-- `flush_doc` (src/src/lib.rs 48-58): no-op for an unmapped name. -/
def flush_doc (s : Store) (name : List Nat) : Except Err (Option DocM × Store) :=
  match getOid s name with
  | some oid => .ok (flushDocInner s oid)
  | none => .ok (none, s)

/-- The pending-update probe of `get_state_vector` (src/src/lib.rs 117-119):
`cursor.to_gte_key(key_update(oid, 0))` — does any key at or after the start of
this document's update range exist anywhere in the store? -/
def hasPendingGE (s : Store) (oid : Nat) : Bool :=
  s.any (fun e => lexLe (keyUpdate oid 0) e.1)

/-- `get_state_vector` (src/src/lib.rs 102-140), returning the value together
with the store left behind by the call. -/
def get_state_vector (s : Store) (name : List Nat) : Except Err (Option Val × Store) :=
  match getOid s name with
  | none => .ok (none, s)
  | some oid =>
    let sv := sget s (keyStateVector oid)
    if hasPendingGE s oid then
      let r := flushDocInner s oid
      match r.1 with
      | some d => .ok (some (stateVectorOf d), r.2)
      | none => .ok (none, r.2)
    else .ok (sv, s)

/-- The clock slice taken from the last update key (src/src/lib.rs 155-158:
`last_key[(len-5)..(len-1)]`, decoded big-endian). -/
def clockSlice (k : Key) : Nat := be4ToNat ((k.drop (k.length - 5)).take 4)

/-- `push_update` (src/src/lib.rs 142-167): scan this document's update range,
take the last entry's clock (0 if none), write the blob at `clock + 1` (32-bit
wrap-around). -/
def push_update (s : Store) (name u : List Nat) : Except Err Store :=
  let r := getOrCreateOid s name
  let lastClock := match (updEntries r.2 r.1).getLast? with
    | some e => clockSlice e.1
    | none => 0
  .ok (sput r.2 (keyUpdate r.1 ((lastClock + 1) % 4294967296)) u)

/-- `get_diff` (src/src/lib.rs 169-184): load into a fresh document, then encode
the diff against the supplied state vector; `None` for an unmapped name. -/
def get_diff (s : Store) (name sv : List Nat) : Except Err (Option (List Nat)) :=
  match load_doc s name [] with
  | .ok r => if r.2 then .ok (some (encodeDiffM r.1 sv)) else .ok none
  | .error e => .error e

/-- `clear_doc` (src/src/lib.rs 186-212): `try_del` the name mapping; if it
existed, walk `keyrange(key_doc_start(oid), key_doc_end(oid))` with the same
defensive break as `remove_range`, deleting every visited key. -/
def clear_doc (s : Store) (name : List Nat) : Except Err Store :=
  match sget s (keyOid name) with
  | none => .ok s
  | some ob =>
    let oid := be4ToNat ob
    let s1 := sdel s (keyOid name)
    .ok (lmdbRemoveRange s1 (keyDocStart oid) (keyDocEnd oid))

/-- `get_meta` (src/src/lib.rs 214-227). -/
def get_meta (s : Store) (name mk : List Nat) : Except Err (Option Val) :=
  match getOid s name with
  | some oid => .ok (sget s (keyMeta oid mk))
  | none => .ok none

/-- `insert_meta` (src/src/lib.rs 229-243), via the adapter upsert
(remove-then-insert, returning the previous value). -/
def insert_meta (s : Store) (name mk v : List Nat) : Except Err (Option Val × Store) :=
  let r := getOrCreateOid s name
  .ok (kvUpsert r.2 (keyMeta r.1 mk) v)

/-- `remove_meta` (src/src/lib.rs 245-261): get, then delete if present,
returning the previous value; `None` without a write for an unmapped name. -/
def remove_meta (s : Store) (name mk : List Nat) : Except Err (Option Val × Store) :=
  match getOid s name with
  | some oid =>
    let k := keyMeta oid mk
    match sget s k with
    | some v => .ok (some v, sdel s k)
    | none => .ok (none, s)
  | none => .ok (none, s)

/-- `DocsNameIter` (src/src/lib.rs 285-305): scan the name namespace
`[V1, KEYSPACE_OID] .. [V1, KEYSPACE_DOC]` and slice the names out of the keys. -/
def iter_docs (s : Store) : List (List Nat) :=
  (keyrange [0, 0] [0, 1] s).map (fun e => docOidName e.1)

/-- `MetadataIter` (src/src/lib.rs 307-332): for a mapped name, scan
`keyrange(key_meta_start(oid), key_meta_end(oid))` and slice out the meta keys;
empty for an unmapped name. -/
def iter_meta (s : Store) (name : List Nat) : List (Val × Val) :=
  match getOid s name with
  | some oid =>
    (keyrange (keyMetaStart oid) (keyMetaEnd oid) s).map (fun e => (docMetaName e.1, e.2))
  | none => []

/-! ### Well-formed stores -/

/-- A key tail of the form `body ++ [0]` with bytes below 256. -/
def validTail (rest : List Nat) : Bool :=
  ! rest.isEmpty && (rest.getLast? == some 0) && rest.all (fun b => decide (b < 256))

/-- The record shapes the codec produces: a name→OID entry carrying a 4-byte OID
value, or a document-namespace record of subtype SNAPSHOT, STATE_VECTOR, UPDATE
or META; all bytes below 256. -/
def validEntry (e : Key × Val) : Bool :=
  match e.1 with
  | 0 :: 0 :: rest =>
    validTail rest && (e.2.length == 4) && e.2.all (fun b => decide (b < 256))
  | 0 :: 1 :: o0 :: o1 :: o2 :: o3 :: sub :: rest =>
    decide (o0 < 256) && decide (o1 < 256) && decide (o2 < 256) && decide (o3 < 256) &&
      ((sub == 1 && rest == [0]) ||
       (sub == 2 && rest == [0]) ||
       (sub == 3 && (rest.length == 5) && validTail rest) ||
       (sub == 4 && validTail rest))
  | _ => false

/-- A well-formed store: entries strictly ascending, every record of a codec
shape. -/
abbrev WFStore (s : Store) : Prop :=
  SortedStore s ∧ ∀ e ∈ s, validEntry e = true

theorem validTail_shape {rest : List Nat} (h : validTail rest = true) :
    ∃ body : List Nat, rest = body ++ [0] ∧ body.all (fun b => decide (b < 256)) = true := by
  simp only [validTail, Bool.and_eq_true, Bool.not_eq_true', beq_iff_eq] at h
  obtain ⟨⟨hne, hlast⟩, hall⟩ := h
  have hne' : rest ≠ [] := by
    intro hh
    rw [hh] at hne
    simp at hne
  refine ⟨rest.dropLast, ?_, ?_⟩
  · have hd := List.dropLast_append_getLast hne'
    have hg : rest.getLast hne' = 0 := by
      have := List.getLast?_eq_getLast rest hne'
      rw [this] at hlast
      injection hlast
    rw [← hg]
    exact hd.symm
  · rw [List.all_eq_true] at hall ⊢
    intro b hb
    exact hall b (List.dropLast_sublist rest |>.subset hb)

theorem validEntry_shape {e : Key × Val} (h : validEntry e = true) :
    (∃ nm : List Nat, e.1 = keyOid nm ∧ nm.all (fun b => decide (b < 256)) = true
        ∧ e.2.length = 4 ∧ e.2.all (fun b => decide (b < 256)) = true)
  ∨ (∃ oid : Nat, oid < 4294967296 ∧
      (e.1 = keySnapshot oid ∨ e.1 = keyStateVector oid
        ∨ (∃ c : Nat, c < 4294967296 ∧ e.1 = keyUpdate oid c)
        ∨ (∃ mk : List Nat, mk.all (fun b => decide (b < 256)) = true ∧ e.1 = keyMeta oid mk))) := by
  obtain ⟨k, v⟩ := e
  cases k with
  | nil => simp [validEntry] at h
  | cons b0 k1 =>
    cases b0 with
    | succ b0 => simp [validEntry] at h
    | zero =>
      cases k1 with
      | nil => simp [validEntry] at h
      | cons b1 k2 =>
        cases b1 with
        | zero =>
          left
          simp only [validEntry, Bool.and_eq_true, beq_iff_eq] at h
          obtain ⟨⟨ht, hv4⟩, hvb⟩ := h
          obtain ⟨nm, hnm, hnmb⟩ := validTail_shape ht
          exact ⟨nm, by simp [keyOid, hnm], hnmb, hv4, hvb⟩
        | succ b1 =>
          cases b1 with
          | succ b1 => simp [validEntry] at h
          | zero =>
            right
            cases k2 with
            | nil => simp [validEntry] at h
            | cons o0 k3 =>
              cases k3 with
              | nil => simp [validEntry] at h
              | cons o1 k4 =>
                cases k4 with
                | nil => simp [validEntry] at h
                | cons o2 k5 =>
                  cases k5 with
                  | nil => simp [validEntry] at h
                  | cons o3 k6 =>
                    cases k6 with
                    | nil => simp [validEntry] at h
                    | cons sub rest =>
                      simp only [validEntry, Bool.and_eq_true, Bool.or_eq_true,
                        beq_iff_eq, decide_eq_true_eq] at h
                      obtain ⟨⟨⟨⟨h0, h1⟩, h2⟩, h3⟩, hsub⟩ := h
                      refine ⟨be4ToNat [o0, o1, o2, o3], be4ToNat_lt o0 o1 o2 o3 h0 h1 h2 h3, ?_⟩
                      have hoid : be4 (be4ToNat [o0, o1, o2, o3]) = [o0, o1, o2, o3] :=
                        be4_be4ToNat o0 o1 o2 o3 h0 h1 h2 h3
                      by_cases hs1 : sub = 1
                      · subst hs1
                        simp only [show ¬((1:Nat) = 2) by decide, show ¬((1:Nat) = 3) by decide,
                          show ¬((1:Nat) = 4) by decide, true_and, false_and, or_false,
                          false_or] at hsub
                        left
                        simp [keySnapshot, hoid, hsub]
                      · by_cases hs2 : sub = 2
                        · subst hs2
                          simp only [show ¬((2:Nat) = 1) by decide, show ¬((2:Nat) = 3) by decide,
                            show ¬((2:Nat) = 4) by decide, true_and, false_and, or_false,
                            false_or] at hsub
                          right
                          left
                          simp [keyStateVector, hoid, hsub]
                        · by_cases hs3 : sub = 3
                          · subst hs3
                            simp only [show ¬((3:Nat) = 1) by decide, show ¬((3:Nat) = 2) by decide,
                              show ¬((3:Nat) = 4) by decide, true_and, false_and, and_false,
                              or_false, false_or, false_and] at hsub
                            obtain ⟨hlen, ht⟩ := hsub
                            right
                            right
                            left
                            obtain ⟨body, hbody, hbb⟩ := validTail_shape ht
                            have hbl : body.length = 4 := by
                              have := congrArg List.length hbody
                              simp at this
                              omega
                            obtain ⟨c0, c1, c2, c3, hb⟩ :
                                ∃ c0 c1 c2 c3, body = [c0, c1, c2, c3] := by
                              cases body with
                              | nil => simp at hbl
                              | cons c0 t0 =>
                                cases t0 with
                                | nil => simp at hbl
                                | cons c1 t1 =>
                                  cases t1 with
                                  | nil => simp at hbl
                                  | cons c2 t2 =>
                                    cases t2 with
                                    | nil => simp at hbl
                                    | cons c3 t3 =>
                                      cases t3 with
                                      | nil => exact ⟨c0, c1, c2, c3, rfl⟩
                                      | cons c4 t4 => simp at hbl
                            subst hb
                            simp only [List.all_cons, List.all_nil, Bool.and_eq_true,
                              decide_eq_true_eq, Bool.and_true] at hbb
                            obtain ⟨hc0, hc1, hc2, hc3⟩ := hbb
                            refine ⟨be4ToNat [c0, c1, c2, c3],
                              be4ToNat_lt c0 c1 c2 c3 hc0 hc1 hc2 hc3, ?_⟩
                            have hcb : be4 (be4ToNat [c0, c1, c2, c3]) = [c0, c1, c2, c3] :=
                              be4_be4ToNat c0 c1 c2 c3 hc0 hc1 hc2 hc3
                            simp [keyUpdate, hoid, hcb, hbody]
                          · by_cases hs4 : sub = 4
                            · subst hs4
                              simp only [show ¬((4:Nat) = 1) by decide,
                                show ¬((4:Nat) = 2) by decide, show ¬((4:Nat) = 3) by decide,
                                true_and, false_and, and_false, or_false, false_or] at hsub
                              right
                              right
                              right
                              obtain ⟨mk, hmk, hmkb⟩ := validTail_shape hsub
                              exact ⟨mk, hmkb, by simp [keyMeta, hoid, hmk]⟩
                            · simp only [hs1, hs2, hs3, hs4, false_and, and_false, or_false,
                                false_or] at hsub

/-! ### Key-order facts -/

theorem lexLt_cons_same (x : Nat) (xs ys : List Nat) :
    lexLt (x :: xs) (x :: ys) = lexLt xs ys := by
  rw [lexLt_cons_eq, if_neg (Nat.lt_irrefl x), if_neg (Nat.lt_irrefl x)]

theorem lexLt_nil_right (a : List Nat) : lexLt a [] = false := by
  cases a <;> rfl

/-- A name-namespace key sorts strictly below every document-namespace key. -/
theorem lexLt_name_doc (x y : List Nat) : lexLt (0 :: 0 :: x) (0 :: 1 :: y) = true := by
  rw [lexLt_cons_same, lexLt_cons_eq, if_pos (by norm_num)]

/-- Comparison of document-namespace keys of one document reduces to the
comparison of their subtype tails. -/
theorem lexLt_doc_same (oid : Nat) (t t' : List Nat) :
    lexLt (0 :: 1 :: (be4 oid ++ t)) (0 :: 1 :: (be4 oid ++ t')) = lexLt t t' := by
  rw [lexLt_cons_same, lexLt_cons_same, lexLt_append_left]

/-- Comparison of document-namespace keys of two different documents is decided
by the OIDs alone. -/
theorem lexLt_doc_ne {oid oid' : Nat} (ho : oid < 4294967296) (ho' : oid' < 4294967296)
    (hne : oid ≠ oid') (t t' : List Nat) :
    lexLt (0 :: 1 :: (be4 oid ++ t)) (0 :: 1 :: (be4 oid' ++ t')) = decide (oid < oid') := by
  rw [lexLt_cons_same, lexLt_cons_same,
    lexLt_append_of_ne (by rw [be4_length, be4_length]) (fun h => hne (be4_inj ho ho' h)) t t',
    lexLt_be4 oid oid' ho ho']

theorem inRangeIncl_iff (lo hi k : Key) :
    inRangeIncl lo hi k = true ↔ (lexLt k lo = false ∧ lexLt hi k = false) := by
  simp [inRangeIncl, lexLe]

/-- A document-namespace key inside a closed range bounded by two
document-namespace keys of one OID belongs to that OID. -/
theorem oid_of_inRange_doc {oid oid' : Nat} (ho : oid < 4294967296) (ho' : oid' < 4294967296)
    {t tlo thi : List Nat}
    (h : inRangeIncl (0 :: 1 :: (be4 oid ++ tlo)) (0 :: 1 :: (be4 oid ++ thi))
      (0 :: 1 :: (be4 oid' ++ t)) = true) : oid' = oid := by
  by_contra hne
  rw [inRangeIncl_iff] at h
  rw [lexLt_doc_ne ho' ho hne] at h
  rw [lexLt_doc_ne ho ho' (fun hh => hne hh.symm)] at h
  obtain ⟨h1, h2⟩ := h
  simp only [decide_eq_false_iff_not, Nat.not_lt] at h1 h2
  exact hne (Nat.le_antisymm h2 h1)

/-- Inside a well-formed store, the keys of the closed update range of one
document are exactly its update keys. -/
theorem inRange_update_iff {oid : Nat} (ho : oid < 4294967296) {e : Key × Val}
    (hv : validEntry e = true) :
    inRangeIncl (keyUpdate oid 0) (keyUpdate oid 4294967295) e.1 = true ↔
      ∃ c, c < 4294967296 ∧ e.1 = keyUpdate oid c := by
  constructor
  · intro hr
    rcases validEntry_shape hv with ⟨nm, hk, _⟩ | ⟨oid', ho', hshape⟩
    · exfalso
      rw [inRangeIncl_iff] at hr
      rw [hk] at hr
      have := lexLt_name_doc (nm ++ [0]) (be4 oid ++ 3 :: (be4 0 ++ [0]))
      rw [keyOid] at hr
      rw [keyUpdate] at hr
      rw [this] at hr
      exact Bool.true_eq_false.mp hr.1
    · have hoo : oid' = oid := by
        rcases hshape with hk | hk | ⟨c, hc, hk⟩ | ⟨mk, _, hk⟩ <;>
          rw [hk] at hr <;>
          exact oid_of_inRange_doc ho ho' hr
      subst hoo
      rcases hshape with hk | hk | ⟨c, hc, hk⟩ | ⟨mk, _, hk⟩
      · exfalso
        rw [inRangeIncl_iff, hk, keySnapshot, keyUpdate, lexLt_doc_same] at hr
        have : lexLt [1, 0] (3 :: (be4 0 ++ [0])) = true := by decide
        rw [this] at hr
        exact Bool.true_eq_false.mp hr.1
      · exfalso
        rw [inRangeIncl_iff, hk, keyStateVector, keyUpdate, lexLt_doc_same] at hr
        have : lexLt [2, 0] (3 :: (be4 0 ++ [0])) = true := by decide
        rw [this] at hr
        exact Bool.true_eq_false.mp hr.1
      · exact ⟨c, hc, hk⟩
      · exfalso
        rw [inRangeIncl_iff, hk] at hr
        simp only [keyMeta, keyUpdate, lexLt_doc_same] at hr
        have : lexLt (3 :: (be4 4294967295 ++ [0])) (4 :: (mk ++ [0])) = true := by
          rw [lexLt_cons_eq, if_pos (by norm_num)]
        rw [this] at hr
        exact Bool.true_eq_false.mp hr.2
  · rintro ⟨c, hc, hk⟩
    rw [inRangeIncl_iff, hk, keyUpdate, keyUpdate, keyUpdate, lexLt_doc_same, lexLt_doc_same,
      lexLt_cons_same, lexLt_cons_same, lexLt_append_zero, lexLt_append_zero,
      lexLt_be4 c 0 hc (by norm_num), lexLt_be4 4294967295 c (by norm_num) hc]
    constructor <;> simp <;> omega

/-- The closed document range of one OID contains exactly that document's
records. -/
theorem inRange_docBounds_iff {oid : Nat} (ho : oid < 4294967296) {e : Key × Val}
    (hv : validEntry e = true) :
    inRangeIncl (keyDocStart oid) (keyDocEnd oid) e.1 = true ↔
      (e.1 = keySnapshot oid ∨ e.1 = keyStateVector oid
        ∨ (∃ c, c < 4294967296 ∧ e.1 = keyUpdate oid c)
        ∨ (∃ mk, e.1 = keyMeta oid mk)) := by
  constructor
  · intro hr
    rcases validEntry_shape hv with ⟨nm, hk, _⟩ | ⟨oid', ho', hshape⟩
    · exfalso
      rw [inRangeIncl_iff, hk, keyOid, keyDocStart] at hr
      rw [lexLt_name_doc] at hr
      exact Bool.true_eq_false.mp hr.1
    · have hoo : oid' = oid := by
        rcases hshape with hk | hk | ⟨c, hc, hk⟩ | ⟨mk, _, hk⟩ <;>
          rw [hk] at hr <;>
          exact oid_of_inRange_doc ho ho' hr
      subst hoo
      rcases hshape with hk | hk | ⟨c, hc, hk⟩ | ⟨mk, _, hk⟩
      · exact Or.inl hk
      · exact Or.inr (Or.inl hk)
      · exact Or.inr (Or.inr (Or.inl ⟨c, hc, hk⟩))
      · exact Or.inr (Or.inr (Or.inr ⟨mk, hk⟩))
  · intro hshape
    have hlo : ∀ t : List Nat, ∀ b : Nat, lexLt ((b + 1) :: t) [0] = false := by
      intro t b
      rw [lexLt_cons_eq, if_neg (by omega), if_pos (by omega)]
    have hhi : ∀ t : List Nat, ∀ b : Nat, b < 255 → lexLt [255] (b :: t) = false := by
      intro t b hb
      rw [lexLt_cons_eq, if_neg (by omega), if_pos (by omega)]
    rcases hshape with hk | hk | ⟨c, hc, hk⟩ | ⟨mk, hk⟩
    · rw [inRangeIncl_iff, hk, keySnapshot, keyDocStart, keyDocEnd, lexLt_doc_same,
        lexLt_doc_same]
      exact ⟨hlo [0] 0, hhi [0] 1 (by norm_num)⟩
    · rw [inRangeIncl_iff, hk, keyStateVector, keyDocStart, keyDocEnd, lexLt_doc_same,
        lexLt_doc_same]
      exact ⟨hlo [0] 1, hhi [0] 2 (by norm_num)⟩
    · rw [inRangeIncl_iff, hk, keyUpdate, keyDocStart, keyDocEnd, lexLt_doc_same,
        lexLt_doc_same]
      exact ⟨hlo (be4 c ++ [0]) 2, hhi (be4 c ++ [0]) 3 (by norm_num)⟩
    · rw [inRangeIncl_iff, hk, keyMeta, keyDocStart, keyDocEnd, lexLt_doc_same,
        lexLt_doc_same]
      exact ⟨hlo (mk ++ [0]) 3, hhi (mk ++ [0]) 4 (by norm_num)⟩

/-- Inside a well-formed store, the keys of the closed metadata range of one
document are metadata keys of that document. -/
theorem inRange_metaBounds {oid : Nat} (ho : oid < 4294967296) {e : Key × Val}
    (hv : validEntry e = true)
    (hr : inRangeIncl (keyMetaStart oid) (keyMetaEnd oid) e.1 = true) :
    ∃ mk, e.1 = keyMeta oid mk := by
  rcases validEntry_shape hv with ⟨nm, hk, _⟩ | ⟨oid', ho', hshape⟩
  · exfalso
    rw [inRangeIncl_iff, hk, keyOid, keyMetaStart] at hr
    rw [lexLt_name_doc] at hr
    exact Bool.true_eq_false.mp hr.1
  · have hoo : oid' = oid := by
      rcases hshape with hk | hk | ⟨c, hc, hk⟩ | ⟨mk, _, hk⟩ <;>
        rw [hk] at hr <;>
        exact oid_of_inRange_doc ho ho' hr
    subst hoo
    rcases hshape with hk | hk | ⟨c, hc, hk⟩ | ⟨mk, _, hk⟩
    · exfalso
      rw [inRangeIncl_iff, hk, keySnapshot, keyMetaStart, lexLt_doc_same] at hr
      have : lexLt [1, 0] [4, 0] = true := by decide
      rw [this] at hr
      exact Bool.true_eq_false.mp hr.1
    · exfalso
      rw [inRangeIncl_iff, hk, keyStateVector, keyMetaStart, lexLt_doc_same] at hr
      have : lexLt [2, 0] [4, 0] = true := by decide
      rw [this] at hr
      exact Bool.true_eq_false.mp hr.1
    · exfalso
      rw [inRangeIncl_iff, hk, keyUpdate, keyMetaStart, lexLt_doc_same] at hr
      have : lexLt (3 :: (be4 c ++ [0])) [4, 0] = true := by
        rw [lexLt_cons_eq, if_pos (by norm_num)]
      rw [this] at hr
      exact Bool.true_eq_false.mp hr.1
    · exact ⟨mk, hk⟩

/-- Inside a well-formed store, the keys of the name-namespace scan are exactly
the name keys. -/
theorem inRange_nameRange_iff {e : Key × Val} (hv : validEntry e = true) :
    inRangeIncl [0, 0] [0, 1] e.1 = true ↔ ∃ nm, e.1 = keyOid nm := by
  constructor
  · intro hr
    rcases validEntry_shape hv with ⟨nm, hk, _⟩ | ⟨oid', ho', hshape⟩
    · exact ⟨nm, hk⟩
    · exfalso
      have hdoc : ∀ t : List Nat, lexLt [0, 1] (0 :: 1 :: (be4 oid' ++ t)) = true := by
        intro t
        rw [show ([0, 1] : List Nat) = 0 :: 1 :: [] from rfl, lexLt_cons_same, lexLt_cons_same]
        cases hb : be4 oid' ++ t with
        | nil => exact absurd (congrArg List.length hb) (by simp [be4_length])
        | cons x xs => rfl
      rcases hshape with hk | hk | ⟨c, hc, hk⟩ | ⟨mk, _, hk⟩ <;>
        rw [inRangeIncl_iff, hk] at hr
      · rw [keySnapshot, hdoc] at hr
        exact Bool.true_eq_false.mp hr.2
      · rw [keyStateVector, hdoc] at hr
        exact Bool.true_eq_false.mp hr.2
      · rw [keyUpdate, hdoc] at hr
        exact Bool.true_eq_false.mp hr.2
      · rw [keyMeta, hdoc] at hr
        exact Bool.true_eq_false.mp hr.2
  · rintro ⟨nm, hk⟩
    rw [inRangeIncl_iff, hk, keyOid]
    constructor
    · rw [show ([0, 0] : List Nat) = 0 :: 0 :: [] from rfl, lexLt_cons_same, lexLt_cons_same,
        lexLt_nil_right]
    · rw [show ([0, 1] : List Nat) = 0 :: 1 :: [] from rfl, lexLt_cons_same, lexLt_cons_eq,
        if_neg (by omega), if_pos (by omega)]

/-! ### Range deletion and bounded iteration, characterized -/

theorem mem_keyrange_iff {s : Store} {lo hi : Key} {e : Key × Val} :
    e ∈ keyrange lo hi s ↔ e ∈ s ∧ inRangeIncl lo hi e.1 = true := by
  show e ∈ s.filter _ ↔ _
  rw [List.mem_filter]

theorem of_mem_keyrange {s : Store} {lo hi : Key} {e : Key × Val}
    (he : e ∈ keyrange lo hi s) : inRangeIncl lo hi e.1 = true :=
  (mem_keyrange_iff.mp he).2

theorem mem_rocksKeyrange_iff {s : Store} {lo hi : Key} {e : Key × Val} :
    e ∈ rocksKeyrange lo hi s ↔ e ∈ s ∧ (lexLe lo e.1 && lexLt e.1 hi) = true := by
  show e ∈ s.filter _ ↔ _
  rw [List.mem_filter]

theorem delLoop_no_break (hi : Key) (es : List (Key × Val)) (s : Store)
    (h : ∀ e ∈ es, lexLt hi e.1 = false) :
    delLoop hi s es = es.foldl (fun acc e => sdel acc e.1) s := by
  induction es generalizing s with
  | nil => rfl
  | cons e rest ih =>
    have he := h e (List.mem_cons_self e rest)
    simp only [delLoop, List.foldl_cons]
    rw [if_neg (by rw [he]; exact Bool.false_ne_true)]
    exact ih (sdel s e.1) (fun f hf => h f (List.mem_cons_of_mem e hf))

theorem foldl_sdel_eq_filter (es : List (Key × Val)) (s : Store) :
    es.foldl (fun acc e => sdel acc e.1) s
      = s.filter (fun x => es.all (fun e => decide (x.1 ≠ e.1))) := by
  induction es generalizing s with
  | nil => simp
  | cons e rest ih =>
    simp only [List.foldl_cons]
    rw [ih (sdel s e.1)]
    show (s.filter (fun x => decide (x.1 ≠ e.1))).filter _ = _
    rw [List.filter_filter]
    apply List.filter_congr
    intro x hx
    simp [List.all_cons, Bool.and_comm]

theorem lmdbRemoveRange_eq_filter (s : Store) (lo hi : Key) :
    lmdbRemoveRange s lo hi = s.filter (fun e => ! inRangeIncl lo hi e.1) := by
  unfold lmdbRemoveRange
  rw [delLoop_no_break hi (keyrange lo hi s) s
    (fun e he => ((inRangeIncl_iff lo hi e.1).mp (of_mem_keyrange he)).2)]
  rw [foldl_sdel_eq_filter]
  apply List.filter_congr
  intro x hx
  cases hr : inRangeIncl lo hi x.1 with
  | true =>
    have hxk : x ∈ keyrange lo hi s := List.mem_filter.mpr ⟨hx, by simp [hr]⟩
    cases hall : (keyrange lo hi s).all (fun e => decide (x.1 ≠ e.1)) with
    | false => simp
    | true =>
      exfalso
      rw [List.all_eq_true] at hall
      have := hall x hxk
      simp at this
  | false =>
    simp only [Bool.not_false]
    rw [List.all_eq_true]
    intro e he
    have hek := of_mem_keyrange he
    simp only [decide_eq_true_eq]
    intro hxe
    rw [← hxe] at hek
    rw [hek] at hr
    exact Bool.true_eq_false.mp hr

theorem rocksRemoveRange_eq_filter (s : Store) (lo hi : Key) :
    rocksRemoveRange s lo hi = s.filter (fun e => ! (lexLe lo e.1 && lexLt e.1 hi)) := by
  unfold rocksRemoveRange
  rw [foldl_sdel_eq_filter]
  apply List.filter_congr
  intro x hx
  cases hr : (lexLe lo x.1 && lexLt x.1 hi) with
  | true =>
    have hxk : x ∈ rocksKeyrange lo hi s := List.mem_filter.mpr ⟨hx, by simp [hr]⟩
    cases hall : (rocksKeyrange lo hi s).all (fun e => decide (x.1 ≠ e.1)) with
    | false => simp
    | true =>
      exfalso
      rw [List.all_eq_true] at hall
      have := hall x hxk
      simp at this
  | false =>
    simp only [Bool.not_false]
    rw [List.all_eq_true]
    intro e he
    have hek := (mem_rocksKeyrange_iff.mp he).2
    simp only [decide_eq_true_eq]
    intro hxe
    rw [← hxe] at hek
    rw [hek] at hr
    exact Bool.true_eq_false.mp hr

theorem takeWhile_of_all {α : Type} (p : α → Bool) (l : List α) (h : ∀ e ∈ l, p e = true) :
    l.takeWhile p = l := by
  induction l with
  | nil => rfl
  | cons e rest ih =>
    rw [List.takeWhile_cons, if_pos (h e (List.mem_cons_self e rest))]
    rw [ih (fun f hf => h f (List.mem_cons_of_mem e hf))]

/-- The defensive cut-off in `LmdbRange::next` never fires: the cursor yields
exactly the closed range. -/
theorem lmdbIterRange_eq_keyrange (lo hi : Key) (s : Store) :
    lmdbIterRange lo hi s = keyrange lo hi s := by
  unfold lmdbIterRange
  apply takeWhile_of_all
  intro e he
  rw [((inRangeIncl_iff lo hi e.1).mp (of_mem_keyrange he)).2]
  rfl

/-- The defensive cut-off in `RocksDBIter::next` never fires: the cursor yields
exactly the half-open range. -/
theorem rocksIterRange_eq (lo hi : Key) (s : Store) :
    rocksIterRange lo hi s = rocksKeyrange lo hi s := by
  unfold rocksIterRange
  apply takeWhile_of_all
  intro e he
  exact (Bool.and_eq_true _ _ |>.mp (mem_rocksKeyrange_iff.mp he).2).2

theorem mem_lmdbRemoveRange {s : Store} {lo hi : Key} {e : Key × Val} :
    e ∈ lmdbRemoveRange s lo hi ↔ e ∈ s ∧ inRangeIncl lo hi e.1 = false := by
  rw [lmdbRemoveRange_eq_filter, List.mem_filter]
  constructor
  · rintro ⟨h1, h2⟩
    exact ⟨h1, by revert h2; cases inRangeIncl lo hi e.1 <;> simp⟩
  · rintro ⟨h1, h2⟩
    exact ⟨h1, by rw [h2]; rfl⟩

theorem sget_lmdbRemoveRange (s : Store) (lo hi k : Key) :
    sget (lmdbRemoveRange s lo hi) k
      = if inRangeIncl lo hi k then none else sget s k := by
  rw [lmdbRemoveRange_eq_filter]
  cases hr : inRangeIncl lo hi k with
  | true =>
    have h := sget_filterKey s (fun x => ! inRangeIncl lo hi x) k
    rw [hr] at h
    simpa using h
  | false =>
    have h := sget_filterKey s (fun x => ! inRangeIncl lo hi x) k
    rw [hr] at h
    simpa using h

theorem keyrange_sput_notin (s : Store) (lo hi k : Key) (v : Val)
    (h : inRangeIncl lo hi k = false) :
    keyrange lo hi (sput s k v) = keyrange lo hi s := by
  induction s with
  | nil => simp [sput, keyrange, List.filter, h]
  | cons e rest ih =>
    cases h1 : lexLt k e.1 with
    | true =>
      simp only [sput, h1, if_true]
      simp only [keyrange, List.filter_cons, h]
      rfl
    | false =>
      cases h2 : lexLt e.1 k with
      | true =>
        simp only [sput, h1, h2, Bool.false_eq_true, if_false, if_true]
        simp only [keyrange, List.filter_cons] at ih ⊢
        cases hp : inRangeIncl lo hi e.1 <;> simp [hp, ih]
      | false =>
        have hek : e.1 = k := lexLt_antisymm h2 h1
        simp only [sput, h1, h2, Bool.false_eq_true, if_false]
        simp only [keyrange, List.filter_cons, hek, h]
        rfl

/-! ### Facade-level helper lemmas -/

theorem mem_sdel {s : Store} {k : Key} {e : Key × Val} :
    e ∈ sdel s k ↔ e ∈ s ∧ e.1 ≠ k := by
  show e ∈ s.filter _ ↔ _
  rw [List.mem_filter]
  simp

theorem foldl_applyUpdate (es : List (Key × Val)) (d : DocM) :
    es.foldl (fun acc e => applyUpdate acc e.2) d = d ++ es.map Prod.snd := by
  induction es generalizing d with
  | nil => simp
  | cons e rest ih =>
    simp only [List.foldl_cons, List.map_cons]
    rw [ih]
    simp [applyUpdate]

theorem keyOid_ne_doc (nm t : List Nat) : keyOid nm ≠ 0 :: 1 :: t := by
  intro h
  simp [keyOid] at h

theorem keyOid_inj {nm nm' : List Nat} (h : keyOid nm = keyOid nm') : nm = nm' := by
  have := congrArg docOidName h
  simpa [docOidName, keyOid, List.dropLast_concat] using this

theorem docOidName_keyOid (nm : List Nat) : docOidName (keyOid nm) = nm := by
  simp [docOidName, keyOid, List.dropLast_concat]

theorem docMetaName_keyMeta (oid : Nat) (mk : List Nat) :
    docMetaName (keyMeta oid mk) = mk := by
  simp [docMetaName, keyMeta, be4, List.dropLast_concat]

theorem keySnapshot_ne_keyStateVector (oid oid' : Nat) :
    keySnapshot oid ≠ keyStateVector oid' := by
  intro h
  simp only [keySnapshot, keyStateVector, List.cons.injEq, true_and] at h
  have hlen : (be4 oid).length = (be4 oid').length := by rw [be4_length, be4_length]
  have := List.append_inj h hlen
  simp at this

theorem keyUpdate_ne_keySnapshot (oid c oid' : Nat) :
    keyUpdate oid c ≠ keySnapshot oid' := by
  intro h
  simp only [keyUpdate, keySnapshot, List.cons.injEq, true_and] at h
  have hlen : (be4 oid).length = (be4 oid').length := by rw [be4_length, be4_length]
  have := List.append_inj h hlen
  simp at this

theorem keyUpdate_ne_keyStateVector (oid c oid' : Nat) :
    keyUpdate oid c ≠ keyStateVector oid' := by
  intro h
  simp only [keyUpdate, keyStateVector, List.cons.injEq, true_and] at h
  have hlen : (be4 oid).length = (be4 oid').length := by rw [be4_length, be4_length]
  have := List.append_inj h hlen
  simp at this

theorem keyMeta_ne_keyOid (oid : Nat) (mk nm : List Nat) : keyMeta oid mk ≠ keyOid nm := by
  intro h
  simp [keyMeta, keyOid] at h

theorem keyUpdate_inj_clock {oid c c' : Nat} (hc : c < 4294967296) (hc' : c' < 4294967296)
    (h : keyUpdate oid c = keyUpdate oid c') : c = c' := by
  simp only [keyUpdate, List.cons.injEq, true_and] at h
  have hlen : (be4 oid).length = (be4 oid).length := rfl
  have h2 := (List.append_inj h hlen).2
  simp only [List.cons.injEq, true_and] at h2
  have hlen2 : (be4 c).length = (be4 c').length := by rw [be4_length, be4_length]
  have h3 := (List.append_inj h2 hlen2).1
  exact be4_inj hc hc' h3

/-- The clock-byte slice of an update key recovers the clock. -/
theorem clockSlice_keyUpdate (oid c : Nat) (hc : c < 4294967296) :
    clockSlice (keyUpdate oid c) = c := by
  have hsh : keyUpdate oid c
      = [0, 1, oid / 16777216 % 256, oid / 65536 % 256, oid / 256 % 256, oid % 256, 3]
        ++ (be4 c ++ [0]) := by
    simp [keyUpdate, be4]
  rw [clockSlice, hsh]
  have hlen : (([0, 1, oid / 16777216 % 256, oid / 65536 % 256, oid / 256 % 256, oid % 256, 3]
      ++ (be4 c ++ [0])).length) = 12 := by
    simp [be4]
  rw [hlen]
  norm_num
  have htake : ((be4 c ++ [0]).take 4) = be4 c := by
    have := List.take_left (be4 c) [0]
    rwa [be4_length] at this
  rw [htake, be4ToNat_be4 c hc]

/-- In a sorted list the last entry is the maximum. -/
theorem getLast_max {l : List (Key × Val)} (hs : SortedStore l) {e : Key × Val}
    (hl : l.getLast? = some e) : ∀ f ∈ l, f = e ∨ lexLt f.1 e.1 = true := by
  induction l with
  | nil => simp at hl
  | cons a rest ih =>
    have hcons := List.pairwise_cons.mp hs
    cases rest with
    | nil =>
      simp only [List.getLast?_singleton, Option.some.injEq] at hl
      intro f hf
      rcases List.mem_singleton.mp hf with hf
      exact Or.inl (hf.trans hl)
    | cons b rest' =>
      rw [List.getLast?_cons_cons] at hl
      have hem : e ∈ b :: rest' := by
        obtain ⟨hne, hee⟩ := List.mem_getLast?_eq_getLast (l := b :: rest') (x := e)
          (by rw [Option.mem_def]; exact hl)
        rw [hee]
        exact List.getLast_mem hne
      intro f hf
      rcases List.mem_cons.mp hf with hf | hf
      · right
        rw [hf]
        exact hcons.1 e hem
      · exact ih hcons.2 hl f hf

/-- An update key of one document lies inside that document's closed update
range. -/
theorem inRange_keyUpdate (oid c : Nat) (hc : c < 4294967296) :
    inRangeIncl (keyUpdate oid 0) (keyUpdate oid 4294967295) (keyUpdate oid c) = true := by
  rw [inRangeIncl_iff, keyUpdate, keyUpdate, keyUpdate, lexLt_doc_same, lexLt_doc_same,
    lexLt_cons_same, lexLt_cons_same, lexLt_append_zero, lexLt_append_zero,
    lexLt_be4 c 0 hc (by norm_num), lexLt_be4 4294967295 c (by norm_num) hc]
  constructor <;> simp <;> omega

theorem mem_updEntries_iff {s : Store} {oid : Nat} {c : Nat} {v : Val}
    (hc : c < 4294967296) :
    (keyUpdate oid c, v) ∈ updEntries s oid ↔ (keyUpdate oid c, v) ∈ s := by
  rw [updEntries, mem_keyrange_iff]
  constructor
  · exact fun h => h.1
  · intro h
    exact ⟨h, inRange_keyUpdate oid c hc⟩

theorem updEntries_shape {s : Store} {oid : Nat} (hwf : WFStore s) (ho : oid < 4294967296) :
    ∀ e ∈ updEntries s oid, ∃ c, c < 4294967296 ∧ e.1 = keyUpdate oid c := by
  intro e he
  have hv := hwf.2 e (mem_keyrange_iff.mp he).1
  exact (inRange_update_iff ho hv).mp (of_mem_keyrange he)

theorem sorted_updEntries {s : Store} (hs : SortedStore s) (oid : Nat) :
    SortedStore (updEntries s oid) := sorted_filter hs _

theorem be4ToNat_lt_of_bytes {v : Val} (hlen : v.length = 4)
    (hb : v.all (fun b => decide (b < 256)) = true) : be4ToNat v < 4294967296 := by
  cases v with
  | nil => simp at hlen
  | cons b0 t0 =>
    cases t0 with
    | nil => simp at hlen
    | cons b1 t1 =>
      cases t1 with
      | nil => simp at hlen
      | cons b2 t2 =>
        cases t2 with
        | nil => simp at hlen
        | cons b3 t3 =>
          cases t3 with
          | cons b4 t4 => simp at hlen
          | nil =>
            simp only [List.all_cons, List.all_nil, Bool.and_eq_true,
              decide_eq_true_eq, Bool.and_true] at hb
            exact be4ToNat_lt b0 b1 b2 b3 hb.1 hb.2.1 hb.2.2.1 hb.2.2.2

/-- The facts established by `get_or_create_oid`: the name is mapped to the
returned OID afterwards, the OID fits 32 bits, and no key other than the name
key changes. -/
theorem getOrCreateOid_spec {s : Store} {name : List Nat} {oid : Nat} {sa : Store}
    (hwf : WFStore s) (hoc : getOrCreateOid s name = (oid, sa)) :
    getOid sa name = some oid
    ∧ oid < 4294967296
    ∧ (∀ k, k ≠ keyOid name → sget sa k = sget s k)
    ∧ SortedStore sa := by
  unfold getOrCreateOid at hoc
  cases hg : getOid s name with
  | some o =>
    rw [hg] at hoc
    injection hoc with h1 h2
    subst h1
    subst h2
    refine ⟨hg, ?_, fun k _ => rfl, hwf.1⟩
    unfold getOid at hg
    cases hv : sget s (keyOid name) with
    | none => rw [hv] at hg; simp at hg
    | some v =>
      rw [hv] at hg
      simp only [Option.map_some', Option.some.injEq] at hg
      have hmem := mem_of_sget hv
      have hval := hwf.2 _ hmem
      rcases validEntry_shape hval with ⟨nm, _, _, hl4, hlb⟩ | ⟨oid', _, hshape⟩
      · rw [← hg]
        exact be4ToNat_lt_of_bytes hl4 hlb
      · exfalso
        rcases hshape with hk | hk | ⟨c, _, hk⟩ | ⟨mk, _, hk⟩ <;>
          exact keyOid_ne_doc name _ (by simpa [keySnapshot, keyStateVector, keyUpdate,
            keyMeta] using hk)
  | none =>
    rw [hg] at hoc
    injection hoc with h1 h2
    subst h1
    subst h2
    have hlt : ((match (keyrange [0, 0] [0, 1] s).getLast? with
        | some e => be4ToNat e.2
        | none => 0) + 1) % 4294967296 < 4294967296 := Nat.mod_lt _ (by norm_num)
    refine ⟨?_, hlt, ?_, sorted_sput hwf.1 _ _⟩
    · unfold getOid
      rw [sget_sput_self]
      simp only [Option.map_some', Option.some.injEq]
      exact be4ToNat_be4 _ hlt
    · intro k hk
      exact sget_sput_ne s (keyOid name) k (be4 _) hk

/-! ### Claim C7 — remove_range bounds -/

/-- C7 (counterexample): the claim "remove_range(from, to) deletes exactly the
keys in [from, to) and leaves a key equal to `to` unchanged" is false for the
LMDB adapter: on the store holding only the key `[5]`,
`remove_range([4], [5])` also deletes the key equal to `to = [5]`. -/
theorem c7_counterexample :
    ¬ (lmdbRemoveRange [([5], [1])] [4] [5]
        = List.filter (fun e => ! (lexLe [4] e.1 && lexLt e.1 [5])) [([5], [1])]) := by
  decide

/-- C7 (amended): the RocksDB adapter's `remove_range(from, to)` deletes exactly
the keys of the half-open interval `[from, to)`, while the LMDB adapter's
deletes exactly the keys of the closed interval `[from, to]` — the key equal to
`to` included; each leaves every key outside its interval unchanged. -/
theorem c7_amended (s : Store) (lo hi : Key) :
    rocksRemoveRange s lo hi = s.filter (fun e => ! (lexLe lo e.1 && lexLt e.1 hi))
  ∧ lmdbRemoveRange s lo hi = s.filter (fun e => ! (lexLe lo e.1 && lexLe e.1 hi)) := by
  refine ⟨rocksRemoveRange_eq_filter s lo hi, ?_⟩
  rw [lmdbRemoveRange_eq_filter]
  rfl

/-! ### Claim C10 — cursor equivalence of the two adapters -/

/-- C10 (counterexample): the two bounded cursors are not observationally
equivalent: on the store holding only the key `[5]` and the bounds
`from = [4], to = [5]`, the LMDB cursor yields the entry with key equal to `to`
while the RocksDB cursor yields nothing. -/
theorem c10_counterexample :
    ¬ (lmdbIterRange [4] [5] [([5], [1])] = rocksIterRange [4] [5] [([5], [1])]) := by
  decide

/-- C10 (amended): on every store containing no key equal to `to`, the LMDB and
RocksDB bounded cursors yield exactly the same sequence of entries; they differ
only at a stored key equal to `to`, which the LMDB cursor (closed upper bound)
yields and the RocksDB cursor (exclusive upper bound) does not. -/
theorem c10_amended (s : Store) (lo hi : Key) (h : ∀ e ∈ s, e.1 ≠ hi) :
    lmdbIterRange lo hi s = rocksIterRange lo hi s := by
  rw [lmdbIterRange_eq_keyrange, rocksIterRange_eq]
  show List.filter (fun e => inRangeIncl lo hi e.1) s
    = List.filter (fun e => lexLe lo e.1 && lexLt e.1 hi) s
  apply List.filter_congr
  intro x hx
  have hne := h x hx
  show inRangeIncl lo hi x.1 = (lexLe lo x.1 && lexLt x.1 hi)
  unfold inRangeIncl
  congr 1
  show lexLe x.1 hi = lexLt x.1 hi
  rcases lexLt_total x.1 hi with hlt | hgt | heq
  · rw [hlt]
    unfold lexLe
    rw [lexLt_asymm hlt]
    rfl
  · unfold lexLe
    rw [hgt, lexLt_asymm hgt]
    rfl
  · exact absurd heq hne

/-- Witness for C10 (amended) at a concrete store without the boundary key. -/
theorem c10_witness :
    lmdbIterRange [4] [5] [([3], [9])] = rocksIterRange [4] [5] [([3], [9])] :=
  c10_amended [([3], [9])] [4] [5] (by decide)

/-! ### Claim C9 — absent names are never errors -/

/-- C9: for a document name with no name→OID mapping, every lookup-style
operation returns through the `Ok` constructor with an empty result: `load_doc`
applies nothing and returns `false`, `get_diff`, `get_meta` and `remove_meta`
return `None` (the latter without modifying the store), `get_state_vector`
returns `None` leaving the store unchanged, and the metadata iterator is empty. -/
theorem c9_absent_name (s : Store) (name sv mk : List Nat) (d : DocM)
    (h : getOid s name = none) :
    load_doc s name d = .ok (d, false)
    ∧ get_diff s name sv = .ok none
    ∧ get_meta s name mk = .ok none
    ∧ remove_meta s name mk = .ok (none, s)
    ∧ get_state_vector s name = .ok (none, s)
    ∧ iter_meta s name = [] := by
  refine ⟨?_, ?_, ?_, ?_, ?_, ?_⟩ <;>
    simp [load_doc, get_diff, get_meta, remove_meta, get_state_vector, iter_meta, h]

/-- Witness for C9 at the empty store. -/
theorem c9_witness :
    getOid [] [65] = none
    ∧ (load_doc [] [65] [] = .ok ([], false)
      ∧ get_diff [] [65] [] = .ok none
      ∧ get_meta [] [65] [0] = .ok none
      ∧ remove_meta [] [65] [0] = .ok (none, [])
      ∧ get_state_vector [] [65] = .ok (none, [])
      ∧ iter_meta [] [65] = []) :=
  ⟨by decide, c9_absent_name [] [65] [] [0] [] (by decide)⟩

/-! ### Claim C3 — OID uniqueness -/

/-- C3: evaluating the store at the failing input: creating documents in the
order "B" (66), "A" (65), "C" (67) through `push_update` assigns OID 2 to both
"A" and "C" — two distinct live names end up sharing one OID, because the
next-OID heuristic reads the OID stored at the lexicographically last name
entry ("B", which holds OID 1) instead of a maximum or a counter. -/
theorem c3_oid_collision :
    ((push_update [] [66] [7]).bind (fun s1 =>
      (push_update s1 [65] [7]).bind (fun s2 =>
        push_update s2 [67] [7]))).map (fun s3 => (getOid s3 [65], getOid s3 [67]))
      = Except.ok (some 2, some 2) := by
  decide

/-! ### Claim C1 — get_state_vector and store mutation -/

/-- C1 (counterexample): `get_state_vector` is not read-only: on the store
holding one document (name `[100]`, OID 1) with one pending update-log entry,
the call flushes the document and the store afterwards differs from the store
before the call. -/
theorem c1_counterexample :
    (get_state_vector [(keyOid [100], be4 1), (keyUpdate 1 1, [7])] [100]).map Prod.snd
      ≠ Except.ok [(keyOid [100], be4 1), (keyUpdate 1 1, [7])] := by
  decide

/-- C1 (amended): when no key at or beyond the document's update-range start
exists, `get_state_vector` returns the stored state-vector record and leaves
the store exactly as it was; when such a key exists the call flushes the
document in place — the resulting store is the flushed store and the returned
value is the merged document's state vector (`None` if the flush applied
nothing) — and no completeness flag is returned. -/
theorem c1_amended (s : Store) (name : List Nat) (oid : Nat)
    (hoid : getOid s name = some oid) :
    (hasPendingGE s oid = false →
        get_state_vector s name = .ok (sget s (keyStateVector oid), s))
    ∧ (hasPendingGE s oid = true →
        get_state_vector s name
          = .ok ((flushDocInner s oid).1.map stateVectorOf, (flushDocInner s oid).2)) := by
  constructor
  · intro hp
    unfold get_state_vector
    rw [hoid]
    simp [hp]
  · intro hp
    unfold get_state_vector
    rw [hoid]
    simp only [hp, if_true]
    cases hf : (flushDocInner s oid).1 with
    | some d => simp [hf]
    | none => simp [hf]

/-- Witness for C1 (amended) at a concrete one-document store. -/
theorem c1_witness :
    (hasPendingGE [(keyOid [100], be4 1)] 1 = false →
        get_state_vector [(keyOid [100], be4 1)] [100]
          = .ok (sget [(keyOid [100], be4 1)] (keyStateVector 1), [(keyOid [100], be4 1)]))
    ∧ (hasPendingGE [(keyOid [100], be4 1)] 1 = true →
        get_state_vector [(keyOid [100], be4 1)] [100]
          = .ok ((flushDocInner [(keyOid [100], be4 1)] 1).1.map stateVectorOf,
              (flushDocInner [(keyOid [100], be4 1)] 1).2)) :=
  c1_amended [(keyOid [100], be4 1)] [100] 1 (by decide)

/-! ### Claim C4 — push_update clock allocation -/

theorem mem_of_getLast?_eq {l : List (Key × Val)} {e : Key × Val}
    (h : l.getLast? = some e) : e ∈ l := by
  obtain ⟨hne, hee⟩ := List.mem_getLast?_eq_getLast (x := e) (by rw [Option.mem_def]; exact h)
  rw [hee]
  exact List.getLast_mem hne

/-- `get_or_create_oid` writes only a name key, which lies outside every
update range. -/
theorem updEntries_getOrCreateOid {s : Store} {name : List Nat} {oid : Nat} {sa : Store}
    (hoc : getOrCreateOid s name = (oid, sa)) (oid' : Nat) :
    updEntries sa oid' = updEntries s oid' := by
  unfold getOrCreateOid at hoc
  cases hg : getOid s name with
  | some o =>
    rw [hg] at hoc
    injection hoc with h1 h2
    rw [← h2]
  | none =>
    rw [hg] at hoc
    injection hoc with h1 h2
    rw [← h2]
    unfold updEntries
    apply keyrange_sput_notin
    show inRangeIncl (keyUpdate oid' 0) (keyUpdate oid' 4294967295) (keyOid name) = false
    unfold inRangeIncl lexLe
    rw [show keyOid name = 0 :: 0 :: (name ++ [0]) from rfl,
      show keyUpdate oid' 0 = 0 :: 1 :: (be4 oid' ++ 3 :: (be4 0 ++ [0])) from rfl,
      lexLt_name_doc]
    rfl

/-- C4: `push_update` writes the blob at clock `cmax + 1` where `cmax` is the
greatest clock currently stored in this document's update log (`0` when the log
is empty); the new clock strictly exceeds every clock already present, so
clocks start at 1, strictly increase, and are never reused (as long as the
32-bit clock does not overflow). -/
theorem c4_push_clock (s : Store) (name u : List Nat) (oid : Nat) (s₁ : Store)
    (hwf : WFStore s)
    (hoc : getOrCreateOid s name = (oid, s₁))
    (hclk : ∀ c v, c < 4294967296 → (keyUpdate oid c, v) ∈ s → c + 1 < 4294967296) :
    ∃ cmax s₂,
      push_update s name u = .ok s₂
      ∧ s₂ = sput s₁ (keyUpdate oid (cmax + 1)) u
      ∧ ((updEntries s oid = [] ∧ cmax = 0) ∨ ∃ v, (keyUpdate oid cmax, v) ∈ s)
      ∧ sget s₂ (keyUpdate oid (cmax + 1)) = some u
      ∧ (∀ c v, c < 4294967296 → (keyUpdate oid c, v) ∈ s → c < cmax + 1) := by
  have ho : oid < 4294967296 := (getOrCreateOid_spec hwf hoc).2.1
  have hupd : updEntries s₁ oid = updEntries s oid := updEntries_getOrCreateOid hoc oid
  cases hlast : (updEntries s oid).getLast? with
  | none =>
    have hempty : updEntries s oid = [] := by
      cases hl : updEntries s oid with
      | nil => rfl
      | cons a r =>
        rw [hl] at hlast
        rcases List.getLast?_eq_none_iff.mp hlast with h
        exact h
    refine ⟨0, sput s₁ (keyUpdate oid 1) u, ?_, by norm_num, Or.inl ⟨hempty, rfl⟩,
      by rw [show (0 : Nat) + 1 = 1 from rfl]; exact sget_sput_self _ _ _, ?_⟩
    · simp only [push_update, hoc]
      rw [hupd, hlast]
      show Except.ok (sput s₁ (keyUpdate oid ((0 + 1) % 4294967296)) u)
        = Except.ok (sput s₁ (keyUpdate oid 1) u)
      norm_num
    · intro c v hc hm
      exact absurd ((mem_updEntries_iff hc).mpr hm) (by rw [hempty]; exact List.not_mem_nil _)
  | some last =>
    have hlmem : last ∈ updEntries s oid := mem_of_getLast?_eq hlast
    obtain ⟨cmax, hcl, hkey⟩ := updEntries_shape hwf ho last hlmem
    have hclock : clockSlice last.1 = cmax := by
      rw [hkey]
      exact clockSlice_keyUpdate oid cmax hcl
    have hlast_in_s : (keyUpdate oid cmax, last.2) ∈ s := by
      have hin : last ∈ s := (mem_keyrange_iff.mp hlmem).1
      have : (last.1, last.2) ∈ s := by rw [Prod.mk.eta]; exact hin
      rwa [hkey] at this
    have hmax : ∀ c v, c < 4294967296 → (keyUpdate oid c, v) ∈ s → c ≤ cmax := by
      intro c v hc hm
      have hmem2 : (keyUpdate oid c, v) ∈ updEntries s oid := (mem_updEntries_iff hc).mpr hm
      rcases getLast_max (sorted_updEntries hwf.1 oid) hlast _ hmem2 with he | hlt
      · have heq : keyUpdate oid c = keyUpdate oid cmax := by
          rw [← hkey, ← he]
        exact Nat.le_of_eq (keyUpdate_inj_clock hc hcl heq)
      · rw [hkey] at hlt
        rw [show (keyUpdate oid c, v).1 = keyUpdate oid c from rfl, keyUpdate, keyUpdate,
          lexLt_doc_same, lexLt_cons_same, lexLt_append_zero,
          lexLt_be4 c cmax hc hcl] at hlt
        exact Nat.le_of_lt (of_decide_eq_true hlt)
    have hlt1 : cmax + 1 < 4294967296 := hclk cmax last.2 hcl hlast_in_s
    refine ⟨cmax, sput s₁ (keyUpdate oid (cmax + 1)) u, ?_, rfl,
      Or.inr ⟨last.2, hlast_in_s⟩, sget_sput_self _ _ _, ?_⟩
    · simp only [push_update, hoc]
      rw [hupd, hlast]
      show Except.ok (sput s₁ (keyUpdate oid ((clockSlice last.1 + 1) % 4294967296)) u)
        = Except.ok (sput s₁ (keyUpdate oid (cmax + 1)) u)
      rw [hclock, Nat.mod_eq_of_lt hlt1]
    · intro c v hc hm
      exact Nat.lt_succ_of_le (hmax c v hc hm)

/-- Witness for C4 at the empty store: the first push of a fresh document is
written at clock 1. -/
theorem c4_witness :
    WFStore ([] : Store)
    ∧ (∃ cmax s₂,
        push_update [] [65] [9] = .ok s₂
        ∧ s₂ = sput [([0, 0, 65, 0], [0, 0, 0, 1])] (keyUpdate 1 (cmax + 1)) [9]
        ∧ ((updEntries [] 1 = [] ∧ cmax = 0) ∨ ∃ v, (keyUpdate 1 cmax, v) ∈ ([] : Store))
        ∧ sget s₂ (keyUpdate 1 (cmax + 1)) = some [9]
        ∧ (∀ c v, c < 4294967296 → (keyUpdate 1 c, v) ∈ ([] : Store) → c < cmax + 1)) :=
  ⟨⟨List.Pairwise.nil, fun e he => absurd he (List.not_mem_nil e)⟩,
   c4_push_clock [] [65] [9] 1 [([0, 0, 65, 0], [0, 0, 0, 1])]
     ⟨List.Pairwise.nil, fun e he => absurd he (List.not_mem_nil e)⟩
     (by decide) (fun c v hc hm => absurd hm (List.not_mem_nil _))⟩

/-! ### Claim C5 — load applies snapshot first, then updates in clock order -/

theorem getOid_lt {s : Store} {name : List Nat} {oid : Nat} (hwf : WFStore s)
    (h : getOid s name = some oid) : oid < 4294967296 := by
  have hoc : getOrCreateOid s name = (oid, s) := by
    unfold getOrCreateOid
    rw [h]
  exact (getOrCreateOid_spec hwf hoc).2.1

theorem updEntries_clocks_pairwise {s : Store} {oid : Nat} (hwf : WFStore s)
    (ho : oid < 4294967296) :
    List.Pairwise (fun a b => a.1 < b.1)
      ((updEntries s oid).map (fun e => (clockSlice e.1, e.2))) := by
  rw [List.pairwise_map]
  apply List.Pairwise.imp_of_mem ?_ (sorted_updEntries hwf.1 oid)
  intro a b ha hb hab
  obtain ⟨c, hc, hk⟩ := updEntries_shape hwf ho a ha
  obtain ⟨c', hc', hk'⟩ := updEntries_shape hwf ho b hb
  show clockSlice a.1 < clockSlice b.1
  rw [hk, hk', clockSlice_keyUpdate oid c hc, clockSlice_keyUpdate oid c' hc']
  rw [hk, hk', keyUpdate, keyUpdate, lexLt_doc_same, lexLt_cons_same, lexLt_append_zero,
    lexLt_be4 c c' hc hc'] at hab
  exact of_decide_eq_true hab

theorem mem_updMap_iff {s : Store} {oid : Nat} (hwf : WFStore s) (ho : oid < 4294967296)
    {c : Nat} {v : Val} :
    (c, v) ∈ (updEntries s oid).map (fun e => (clockSlice e.1, e.2))
      ↔ c < 4294967296 ∧ (keyUpdate oid c, v) ∈ s := by
  rw [List.mem_map]
  constructor
  · rintro ⟨e, he, heq⟩
    obtain ⟨c', hc', hk⟩ := updEntries_shape hwf ho e he
    have hcs : clockSlice e.1 = c' := by
      rw [hk]
      exact clockSlice_keyUpdate oid c' hc'
    have h1 : c = c' := by
      have := congrArg Prod.fst heq
      simp only at this
      rw [← this, hcs]
    have h2 : e.2 = v := congrArg Prod.snd heq
    subst h1
    refine ⟨hc', ?_⟩
    have hin : e ∈ s := (mem_keyrange_iff.mp he).1
    have : (e.1, e.2) ∈ s := by rw [Prod.mk.eta]; exact hin
    rw [hk, h2] at this
    exact this
  · rintro ⟨hc, hm⟩
    refine ⟨(keyUpdate oid c, v), (mem_updEntries_iff hc).mpr hm, ?_⟩
    simp [clockSlice_keyUpdate oid c hc]

theorem loadDocInner_eq (s : Store) (oid : Nat) (d : DocM) :
    loadDocInner s oid d
      = ((match sget s (keySnapshot oid) with
          | some blob => d ++ [blob]
          | none => d) ++ (updEntries s oid).map Prod.snd,
         (sget s (keySnapshot oid)).isSome || ! (updEntries s oid).isEmpty,
         (sget s (keySnapshot oid)).isSome) := by
  have hz : loadDocInner s oid d
      = ((updEntries s oid).foldl (fun acc e => applyUpdate acc e.2)
          (match sget s (keySnapshot oid) with
            | some blob => applyUpdate d blob
            | none => d),
         (sget s (keySnapshot oid)).isSome || ! (updEntries s oid).isEmpty,
         (sget s (keySnapshot oid)).isSome) := rfl
  rw [hz, foldl_applyUpdate]
  cases sget s (keySnapshot oid) <;> simp [applyUpdate]

set_option maxHeartbeats 1000000 in
/-- C5: `load_doc` applies the SNAPSHOT record (decoded as an update) first when
one exists, then every UPDATE record in strictly ascending clock order — the
applied update sequence is exactly the store's update entries for that OID —
and reports whether anything was applied; for a name with no mapping it applies
nothing and reports `false`. -/
theorem c5_load (s : Store) (name : List Nat) (d : DocM) (hwf : WFStore s) :
    (getOid s name = none → load_doc s name d = .ok (d, false))
    ∧ (∀ oid, getOid s name = some oid →
        ∃ ups : List (Nat × Val),
          load_doc s name d = .ok (
            (match sget s (keySnapshot oid) with
              | some blob => d ++ [blob]
              | none => d) ++ ups.map Prod.snd,
            (sget s (keySnapshot oid)).isSome || ! ups.isEmpty)
          ∧ List.Pairwise (fun a b => a.1 < b.1) ups
          ∧ (∀ c v, (c, v) ∈ ups ↔ c < 4294967296 ∧ (keyUpdate oid c, v) ∈ s)) := by
  constructor
  · intro h
    simp [load_doc, h]
  · intro oid hoid
    have ho : oid < 4294967296 := getOid_lt hwf hoid
    refine ⟨(updEntries s oid).map (fun e => (clockSlice e.1, e.2)), ?_,
      updEntries_clocks_pairwise hwf ho, fun c v => mem_updMap_iff hwf ho⟩
    simp only [load_doc, hoid]
    rw [loadDocInner_eq]
    simp only [List.map_map, Function.comp]
    refine congrArg Except.ok (Prod.ext rfl ?_)
    cases updEntries s oid <;> rfl

/-- Witness for C5 at the empty store. -/
theorem c5_witness :
    WFStore ([] : Store)
    ∧ ((getOid [] [65] = none → load_doc [] [65] [[3]] = .ok ([[3]], false))
      ∧ (∀ oid, getOid [] [65] = some oid →
          ∃ ups : List (Nat × Val),
            load_doc [] [65] [[3]] = .ok (
              (match sget [] (keySnapshot oid) with
                | some blob => [[3]] ++ [blob]
                | none => [[3]]) ++ ups.map Prod.snd,
              (sget [] (keySnapshot oid)).isSome || ! ups.isEmpty)
            ∧ List.Pairwise (fun a b => a.1 < b.1) ups
            ∧ (∀ c v, (c, v) ∈ ups ↔ c < 4294967296 ∧ (keyUpdate oid c, v) ∈ ([] : Store)))) :=
  ⟨⟨List.Pairwise.nil, fun e he => absurd he (List.not_mem_nil e)⟩,
   c5_load [] [65] [[3]] ⟨List.Pairwise.nil, fun e he => absurd he (List.not_mem_nil e)⟩⟩

/-! ### Claim C2 — flush (compaction) -/

theorem snap_notin_updRange (oid : Nat) :
    inRangeIncl (keyUpdate oid 0) (keyUpdate oid 4294967295) (keySnapshot oid) = false := by
  unfold inRangeIncl lexLe
  rw [keySnapshot, keyUpdate, lexLt_doc_same,
    show lexLt [1, 0] (3 :: (be4 0 ++ [0])) = true from by decide]
  rfl

theorem sv_notin_updRange (oid : Nat) :
    inRangeIncl (keyUpdate oid 0) (keyUpdate oid 4294967295) (keyStateVector oid) = false := by
  unfold inRangeIncl lexLe
  rw [keyStateVector, keyUpdate, lexLt_doc_same,
    show lexLt [2, 0] (3 :: (be4 0 ++ [0])) = true from by decide]
  rfl

theorem updEntries_after_removeRange (s : Store) (oid : Nat) :
    updEntries (lmdbRemoveRange s (keyUpdate oid 0) (keyUpdate oid 4294967295)) oid = [] := by
  unfold updEntries keyrange
  rw [List.filter_eq_nil_iff]
  intro e he
  have h := mem_lmdbRemoveRange.mp he
  simp [h.2]

theorem flushDocInner_eq (s : Store) (oid : Nat) :
    flushDocInner s oid
      = (if (sget s (keySnapshot oid)).isSome || ! (updEntries s oid).isEmpty then
          (some ((loadDocInner s oid []).1),
            lmdbRemoveRange
              (sput (sput s (keySnapshot oid) (encodeFullState (loadDocInner s oid []).1))
                (keyStateVector oid) (stateVectorOf (loadDocInner s oid []).1))
              (keyUpdate oid 0) (keyUpdate oid 4294967295))
        else (none, s)) := by
  have hz : flushDocInner s oid
      = (if (loadDocInner s oid []).2.1 then
          (some ((loadDocInner s oid []).1),
            lmdbRemoveRange
              (sput (sput s (keySnapshot oid) (encodeFullState (loadDocInner s oid []).1))
                (keyStateVector oid) (stateVectorOf (loadDocInner s oid []).1))
              (keyUpdate oid 0) (keyUpdate oid 4294967295))
        else (none, s)) := rfl
  rw [hz, loadDocInner_eq]

/-- C2: `flush_doc` is a no-op returning `None` when the document has no
snapshot and no pending update (or no mapping at all); otherwise it returns the
document obtained by replaying snapshot-then-log into a fresh empty document,
and afterwards the store holds exactly one Snapshot record (the merged
document's full state), exactly one StateVector record (its state vector), and
zero update-log entries for that OID. -/
theorem c2_flush (s : Store) (name : List Nat) (hwf : WFStore s) :
    (getOid s name = none → flush_doc s name = .ok (none, s))
    ∧ (∀ oid, getOid s name = some oid →
        (sget s (keySnapshot oid) = none → updEntries s oid = [] →
            flush_doc s name = .ok (none, s))
        ∧ ((sget s (keySnapshot oid)).isSome = true ∨ updEntries s oid ≠ [] →
            ∃ d s',
              flush_doc s name = .ok (some d, s')
              ∧ d = (match sget s (keySnapshot oid) with
                  | some blob => [blob]
                  | none => []) ++ (updEntries s oid).map Prod.snd
              ∧ sget s' (keySnapshot oid) = some (encodeFullState d)
              ∧ countKey s' (keySnapshot oid) = 1
              ∧ sget s' (keyStateVector oid) = some (stateVectorOf d)
              ∧ countKey s' (keyStateVector oid) = 1
              ∧ updEntries s' oid = [])) := by
  constructor
  · intro h
    simp [flush_doc, h]
  · intro oid hoid
    constructor
    · intro hsnap hupd
      simp only [flush_doc, hoid]
      rw [flushDocInner_eq, hsnap, hupd]
      rfl
    · intro hne
      have hcond : ((sget s (keySnapshot oid)).isSome || ! (updEntries s oid).isEmpty)
          = true := by
        rcases hne with h | h
        · rw [h, Bool.true_or]
        · have he : (updEntries s oid).isEmpty = false := by
            cases hu : updEntries s oid with
            | nil => exact absurd hu h
            | cons a r => rfl
          rw [he, Bool.not_false, Bool.or_true]
      have hd : (loadDocInner s oid []).1
          = (match sget s (keySnapshot oid) with
              | some blob => [blob]
              | none => []) ++ (updEntries s oid).map Prod.snd := by
        rw [loadDocInner_eq]
        cases sget s (keySnapshot oid) <;> rfl
      set d := (match sget s (keySnapshot oid) with
          | some blob => [blob]
          | none => ([] : DocM)) ++ (updEntries s oid).map Prod.snd with hdd
      set s2 := sput (sput s (keySnapshot oid) (encodeFullState d))
          (keyStateVector oid) (stateVectorOf d) with hs2
      set sfin := lmdbRemoveRange s2 (keyUpdate oid 0) (keyUpdate oid 4294967295) with hsf
      have hsorted2 : SortedStore s2 := sorted_sput (sorted_sput hwf.1 _ _) _ _
      have hsorted' : SortedStore sfin := by
        rw [hsf, lmdbRemoveRange_eq_filter]
        exact sorted_filter hsorted2 _
      have hsnapget : sget sfin (keySnapshot oid) = some (encodeFullState d) := by
        rw [hsf, sget_lmdbRemoveRange, snap_notin_updRange]
        rw [hs2, sget_sput_ne _ _ _ _ (keySnapshot_ne_keyStateVector oid oid),
          sget_sput_self]
        rfl
      have hsvget : sget sfin (keyStateVector oid) = some (stateVectorOf d) := by
        rw [hsf, sget_lmdbRemoveRange, sv_notin_updRange]
        rw [hs2, sget_sput_self]
        rfl
      refine ⟨d, sfin, ?_, hdd, hsnapget, countKey_eq_one hsorted' hsnapget, hsvget,
        countKey_eq_one hsorted' hsvget, by rw [hsf]; exact updEntries_after_removeRange s2 oid⟩
      simp only [flush_doc, hoid]
      rw [flushDocInner_eq, hcond, if_pos rfl, hd]

/-- Witness for C2 at a one-document store holding a snapshot, a state vector
and one pending update. -/
theorem c2_witness :
    WFStore [([0, 0, 100, 0], [0, 0, 0, 1])]
    ∧ ((getOid [([0, 0, 100, 0], [0, 0, 0, 1])] [100] = none →
          flush_doc [([0, 0, 100, 0], [0, 0, 0, 1])] [100]
            = .ok (none, [([0, 0, 100, 0], [0, 0, 0, 1])]))
      ∧ (∀ oid, getOid [([0, 0, 100, 0], [0, 0, 0, 1])] [100] = some oid →
          (sget [([0, 0, 100, 0], [0, 0, 0, 1])] (keySnapshot oid) = none →
              updEntries [([0, 0, 100, 0], [0, 0, 0, 1])] oid = [] →
              flush_doc [([0, 0, 100, 0], [0, 0, 0, 1])] [100]
                = .ok (none, [([0, 0, 100, 0], [0, 0, 0, 1])]))
          ∧ ((sget [([0, 0, 100, 0], [0, 0, 0, 1])] (keySnapshot oid)).isSome = true
                ∨ updEntries [([0, 0, 100, 0], [0, 0, 0, 1])] oid ≠ [] →
              ∃ d s',
                flush_doc [([0, 0, 100, 0], [0, 0, 0, 1])] [100] = .ok (some d, s')
                ∧ d = (match sget [([0, 0, 100, 0], [0, 0, 0, 1])] (keySnapshot oid) with
                    | some blob => [blob]
                    | none => [])
                    ++ (updEntries [([0, 0, 100, 0], [0, 0, 0, 1])] oid).map Prod.snd
                ∧ sget s' (keySnapshot oid) = some (encodeFullState d)
                ∧ countKey s' (keySnapshot oid) = 1
                ∧ sget s' (keyStateVector oid) = some (stateVectorOf d)
                ∧ countKey s' (keyStateVector oid) = 1
                ∧ updEntries s' oid = []))) :=
  ⟨by decide, c2_flush [([0, 0, 100, 0], [0, 0, 0, 1])] [100] (by decide)⟩

/-! ### Claim C6 — clear_doc -/

theorem keyOid_notin_docBounds (nm : List Nat) (oid : Nat) :
    inRangeIncl (keyDocStart oid) (keyDocEnd oid) (keyOid nm) = false := by
  unfold inRangeIncl lexLe
  rw [show keyOid nm = 0 :: 0 :: (nm ++ [0]) from rfl,
    show keyDocStart oid = 0 :: 1 :: (be4 oid ++ [0]) from rfl, lexLt_name_doc]
  rfl

theorem docKey_in_docBounds (oid : Nat) :
    inRangeIncl (keyDocStart oid) (keyDocEnd oid) (keySnapshot oid) = true
    ∧ inRangeIncl (keyDocStart oid) (keyDocEnd oid) (keyStateVector oid) = true
    ∧ (∀ c, inRangeIncl (keyDocStart oid) (keyDocEnd oid) (keyUpdate oid c) = true)
    ∧ (∀ mk, inRangeIncl (keyDocStart oid) (keyDocEnd oid) (keyMeta oid mk) = true) := by
  have hlo : ∀ t : List Nat, ∀ b : Nat, lexLt ((b + 1) :: t) [0] = false := by
    intro t b
    rw [lexLt_cons_eq, if_neg (by omega), if_pos (by omega)]
  have hhi : ∀ t : List Nat, ∀ b : Nat, b < 255 → lexLt [255] (b :: t) = false := by
    intro t b hb
    rw [lexLt_cons_eq, if_neg (by omega), if_pos (by omega)]
  refine ⟨?_, ?_, ?_, ?_⟩
  · rw [inRangeIncl_iff, keySnapshot, keyDocStart, keyDocEnd, lexLt_doc_same, lexLt_doc_same]
    exact ⟨hlo [0] 0, hhi [0] 1 (by norm_num)⟩
  · rw [inRangeIncl_iff, keyStateVector, keyDocStart, keyDocEnd, lexLt_doc_same,
      lexLt_doc_same]
    exact ⟨hlo [0] 1, hhi [0] 2 (by norm_num)⟩
  · intro c
    rw [inRangeIncl_iff, keyUpdate, keyDocStart, keyDocEnd, lexLt_doc_same, lexLt_doc_same]
    exact ⟨hlo (be4 c ++ [0]) 2, hhi (be4 c ++ [0]) 3 (by norm_num)⟩
  · intro mk
    rw [inRangeIncl_iff, keyMeta, keyDocStart, keyDocEnd, lexLt_doc_same, lexLt_doc_same]
    exact ⟨hlo (mk ++ [0]) 3, hhi (mk ++ [0]) 4 (by norm_num)⟩

theorem docKey_ne_notin_docBounds {oid oid' : Nat} (ho : oid < 4294967296)
    (ho' : oid' < 4294967296) (hne : oid' ≠ oid) (t : List Nat) :
    inRangeIncl (keyDocStart oid) (keyDocEnd oid) (0 :: 1 :: (be4 oid' ++ t)) = false := by
  cases h : inRangeIncl (keyDocStart oid) (keyDocEnd oid) (0 :: 1 :: (be4 oid' ++ t)) with
  | false => rfl
  | true => exact absurd (oid_of_inRange_doc ho ho' h) hne

/-- C6: `clear_doc` removes the name→OID mapping and every record within the
document bounds of that OID (Snapshot, StateVector, all update-log entries, all
metadata entries) and nothing else: every record of any other OID and every
other name mapping is untouched.  Afterwards enumeration no longer yields the
cleared name, loading it applies nothing, and its state-vector query yields
`None` without any further change. -/
theorem c6_clear (s : Store) (name : List Nat) (ob : Val) (hwf : WFStore s)
    (hob : sget s (keyOid name) = some ob) :
    ∃ oid s',
      oid = be4ToNat ob
      ∧ clear_doc s name = .ok s'
      ∧ (∀ e : Key × Val, e ∈ s' ↔ (e ∈ s ∧ e.1 ≠ keyOid name
          ∧ inRangeIncl (keyDocStart oid) (keyDocEnd oid) e.1 = false))
      ∧ sget s' (keyOid name) = none
      ∧ sget s' (keySnapshot oid) = none
      ∧ sget s' (keyStateVector oid) = none
      ∧ updEntries s' oid = []
      ∧ (∀ mk, sget s' (keyMeta oid mk) = none)
      ∧ (∀ nm, nm ≠ name → sget s' (keyOid nm) = sget s (keyOid nm))
      ∧ (∀ oid', oid' < 4294967296 → oid' ≠ oid →
          sget s' (keySnapshot oid') = sget s (keySnapshot oid')
          ∧ sget s' (keyStateVector oid') = sget s (keyStateVector oid')
          ∧ (∀ c, sget s' (keyUpdate oid' c) = sget s (keyUpdate oid' c))
          ∧ (∀ mk, sget s' (keyMeta oid' mk) = sget s (keyMeta oid' mk)))
      ∧ name ∉ iter_docs s'
      ∧ (∀ d, load_doc s' name d = .ok (d, false))
      ∧ get_state_vector s' name = .ok (none, s') := by
  have hvob := hwf.2 _ (mem_of_sget hob)
  have ho : be4ToNat ob < 4294967296 := by
    rcases validEntry_shape hvob with ⟨nm, _, _, hl4, hlb⟩ | ⟨oid', _, hshape⟩
    · exact be4ToNat_lt_of_bytes hl4 hlb
    · exfalso
      rcases hshape with hk | hk | ⟨c, _, hk⟩ | ⟨mk, _, hk⟩ <;>
        exact keyOid_ne_doc name _ (by simpa [keySnapshot, keyStateVector, keyUpdate,
          keyMeta] using hk)
  refine ⟨be4ToNat ob,
    lmdbRemoveRange (sdel s (keyOid name)) (keyDocStart (be4ToNat ob))
      (keyDocEnd (be4ToNat ob)), rfl, ?_, ?_, ?_, ?_, ?_, ?_, ?_, ?_, ?_, ?_, ?_, ?_⟩
  · simp only [clear_doc, hob]
  · intro e
    rw [mem_lmdbRemoveRange, mem_sdel, and_assoc]
  · rw [sget_lmdbRemoveRange, keyOid_notin_docBounds]
    exact sget_sdel_self s (keyOid name)
  · rw [sget_lmdbRemoveRange, (docKey_in_docBounds (be4ToNat ob)).1]
    rfl
  · rw [sget_lmdbRemoveRange, (docKey_in_docBounds (be4ToNat ob)).2.1]
    rfl
  · unfold updEntries keyrange
    rw [List.filter_eq_nil_iff]
    intro e he
    have hmem := mem_lmdbRemoveRange.mp he
    have hv := hwf.2 e (mem_sdel.mp hmem.1).1
    intro hpred
    have hr : inRangeIncl (keyUpdate (be4ToNat ob) 0) (keyUpdate (be4ToNat ob) 4294967295)
        e.1 = true := by simpa using hpred
    obtain ⟨c, hc, hk⟩ := (inRange_update_iff ho hv).mp hr
    have := hmem.2
    rw [hk, (docKey_in_docBounds (be4ToNat ob)).2.2.1 c] at this
    exact Bool.true_eq_false.mp this
  · intro mk
    rw [sget_lmdbRemoveRange, (docKey_in_docBounds (be4ToNat ob)).2.2.2 mk]
    rfl
  · intro nm hnm
    rw [sget_lmdbRemoveRange, keyOid_notin_docBounds]
    exact sget_sdel_ne s (keyOid name) (keyOid nm) (fun h => hnm (keyOid_inj h))
  · intro oid' ho' hne
    have hgen : ∀ t : List Nat,
        sget (lmdbRemoveRange (sdel s (keyOid name)) (keyDocStart (be4ToNat ob))
          (keyDocEnd (be4ToNat ob))) (0 :: 1 :: (be4 oid' ++ t))
        = sget s (0 :: 1 :: (be4 oid' ++ t)) := by
      intro t
      rw [sget_lmdbRemoveRange, docKey_ne_notin_docBounds ho ho' hne]
      exact sget_sdel_ne s (keyOid name) _
        (fun h => keyOid_ne_doc name (be4 oid' ++ t) h.symm)
    exact ⟨hgen ([1, 0]), hgen ([2, 0]), fun c => hgen (3 :: (be4 c ++ [0])),
      fun mk => hgen (4 :: (mk ++ [0]))⟩
  · intro hmem
    unfold iter_docs at hmem
    obtain ⟨e, he, hdn⟩ := List.mem_map.mp hmem
    have hks := mem_keyrange_iff.mp he
    have hin := mem_lmdbRemoveRange.mp hks.1
    have hv := hwf.2 e (mem_sdel.mp hin.1).1
    obtain ⟨nm, hk⟩ := (inRange_nameRange_iff hv).mp hks.2
    rw [hk, docOidName_keyOid] at hdn
    rw [hdn] at hk
    exact (mem_sdel.mp hin.1).2 hk
  · intro d
    have hg : sget (lmdbRemoveRange (sdel s (keyOid name)) (keyDocStart (be4ToNat ob))
        (keyDocEnd (be4ToNat ob))) (keyOid name) = none := by
      rw [sget_lmdbRemoveRange, keyOid_notin_docBounds]
      exact sget_sdel_self s (keyOid name)
    simp [load_doc, getOid, hg]
  · have hg : sget (lmdbRemoveRange (sdel s (keyOid name)) (keyDocStart (be4ToNat ob))
        (keyDocEnd (be4ToNat ob))) (keyOid name) = none := by
      rw [sget_lmdbRemoveRange, keyOid_notin_docBounds]
      exact sget_sdel_self s (keyOid name)
    simp [get_state_vector, getOid, hg]

/-- Witness for C6 at a store holding one document's name mapping and snapshot. -/
theorem c6_witness :
    WFStore [([0, 0, 100, 0], [0, 0, 0, 1]), ([0, 1, 0, 0, 0, 1, 1, 0], [5])]
    ∧ sget [([0, 0, 100, 0], [0, 0, 0, 1]), ([0, 1, 0, 0, 0, 1, 1, 0], [5])] (keyOid [100]) = some [0, 0, 0, 1]
    ∧ (∃ oid s',
        oid = be4ToNat [0, 0, 0, 1]
        ∧ clear_doc [([0, 0, 100, 0], [0, 0, 0, 1]), ([0, 1, 0, 0, 0, 1, 1, 0], [5])] [100] = .ok s'
        ∧ (∀ e : Key × Val, e ∈ s' ↔ (e ∈ [([0, 0, 100, 0], [0, 0, 0, 1]), ([0, 1, 0, 0, 0, 1, 1, 0], [5])] ∧ e.1 ≠ keyOid [100]
            ∧ inRangeIncl (keyDocStart oid) (keyDocEnd oid) e.1 = false))
        ∧ sget s' (keyOid [100]) = none
        ∧ sget s' (keySnapshot oid) = none
        ∧ sget s' (keyStateVector oid) = none
        ∧ updEntries s' oid = []
        ∧ (∀ mk, sget s' (keyMeta oid mk) = none)
        ∧ (∀ nm, nm ≠ [100] → sget s' (keyOid nm) = sget [([0, 0, 100, 0], [0, 0, 0, 1]), ([0, 1, 0, 0, 0, 1, 1, 0], [5])] (keyOid nm))
        ∧ (∀ oid', oid' < 4294967296 → oid' ≠ oid →
            sget s' (keySnapshot oid') = sget [([0, 0, 100, 0], [0, 0, 0, 1]), ([0, 1, 0, 0, 0, 1, 1, 0], [5])] (keySnapshot oid')
            ∧ sget s' (keyStateVector oid') = sget [([0, 0, 100, 0], [0, 0, 0, 1]), ([0, 1, 0, 0, 0, 1, 1, 0], [5])] (keyStateVector oid')
            ∧ (∀ c, sget s' (keyUpdate oid' c) = sget [([0, 0, 100, 0], [0, 0, 0, 1]), ([0, 1, 0, 0, 0, 1, 1, 0], [5])] (keyUpdate oid' c))
            ∧ (∀ mk, sget s' (keyMeta oid' mk) = sget [([0, 0, 100, 0], [0, 0, 0, 1]), ([0, 1, 0, 0, 0, 1, 1, 0], [5])] (keyMeta oid' mk)))
        ∧ [100] ∉ iter_docs s'
        ∧ (∀ d, load_doc s' [100] d = .ok (d, false))
        ∧ get_state_vector s' [100] = .ok (none, s')) :=
  ⟨by decide, by decide,
   c6_clear [([0, 0, 100, 0], [0, 0, 0, 1]), ([0, 1, 0, 0, 0, 1, 1, 0], [5])] [100] [0, 0, 0, 1] (by decide) (by decide)⟩

/-! ### Claim C8 — metadata semantics -/

theorem lexLt_keyMeta (oid : Nat) (a b : List Nat) :
    lexLt (keyMeta oid a) (keyMeta oid b) = lexLt a b := by
  rw [keyMeta, keyMeta, lexLt_doc_same, lexLt_cons_same, lexLt_append_zero]

theorem kvUpsert_none {s : Store} {k : Key} (h : sget s k = none) (v : Val) :
    kvUpsert s k v = (none, sput s k v) := by
  have hz : kvUpsert s k v
      = (sget s k, sput (match sget s k with | some _ => sdel s k | none => s) k v) := rfl
  rw [hz, h]

theorem kvUpsert_some {s : Store} {k : Key} {w : Val} (h : sget s k = some w) (v : Val) :
    kvUpsert s k v = (some w, sput (sdel s k) k v) := by
  have hz : kvUpsert s k v
      = (sget s k, sput (match sget s k with | some _ => sdel s k | none => s) k v) := rfl
  rw [hz, h]

/-- C8: for a metadata key with no current value, `get` returns `None`, the
first `upsert` returns `None`, the second `upsert` returns the first value,
`remove` returns the second value, a `get` afterwards returns `None`; and the
metadata iterator yields only entries stored for that document's OID, in
strictly ascending byte order of meta key. -/
theorem c8_meta (s : Store) (name mk v1 v2 : List Nat) (oid : Nat) (sa : Store)
    (hwf : WFStore s)
    (hoc : getOrCreateOid s name = (oid, sa))
    (hnone : sget s (keyMeta oid mk) = none) :
    ∃ s1 s2 s3,
      get_meta s name mk = .ok none
      ∧ insert_meta s name mk v1 = .ok (none, s1)
      ∧ insert_meta s1 name mk v2 = .ok (some v1, s2)
      ∧ remove_meta s2 name mk = .ok (some v2, s3)
      ∧ get_meta s3 name mk = .ok none
      ∧ (∀ p ∈ iter_meta s name, (keyMeta oid p.1, p.2) ∈ s)
      ∧ List.Pairwise (fun a b => lexLt a.1 b.1 = true) (iter_meta s name) := by
  obtain ⟨hmap, ho, hpres, hsorted_a⟩ := getOrCreateOid_spec hwf hoc
  have hknm : ∀ v : Val, keyOid name ≠ keyMeta oid mk :=
    fun v h => keyMeta_ne_keyOid oid mk name h.symm
  have h_aM : sget sa (keyMeta oid mk) = none := by
    rw [hpres (keyMeta oid mk) (keyMeta_ne_keyOid oid mk name), hnone]
  refine ⟨sput sa (keyMeta oid mk) v1,
    sput (sdel (sput sa (keyMeta oid mk) v1) (keyMeta oid mk)) (keyMeta oid mk) v2,
    sdel (sput (sdel (sput sa (keyMeta oid mk) v1) (keyMeta oid mk)) (keyMeta oid mk) v2)
      (keyMeta oid mk),
    ?_, ?_, ?_, ?_, ?_, ?_, ?_⟩
  · -- get before any upsert
    cases hg : getOid s name with
    | none => simp [get_meta, hg]
    | some o =>
      have hpair : ((o : Nat), s) = (oid, sa) := by
        unfold getOrCreateOid at hoc
        rw [hg] at hoc
        exact hoc
      have h1 : o = oid := congrArg Prod.fst hpair
      subst h1
      simp [get_meta, hg, hnone]
  · -- first upsert
    simp only [insert_meta, hoc]
    rw [kvUpsert_none h_aM]
  · -- second upsert
    have hg1 : getOid (sput sa (keyMeta oid mk) v1) name = some oid := by
      unfold getOid
      rw [sget_sput_ne _ _ _ _ (hknm v1)]
      exact hmap
    have hoc1 : getOrCreateOid (sput sa (keyMeta oid mk) v1) name
        = (oid, sput sa (keyMeta oid mk) v1) := by
      unfold getOrCreateOid
      rw [hg1]
    simp only [insert_meta, hoc1]
    rw [kvUpsert_some (sget_sput_self sa (keyMeta oid mk) v1)]
  · -- remove
    have hg2 : getOid (sput (sdel (sput sa (keyMeta oid mk) v1) (keyMeta oid mk))
        (keyMeta oid mk) v2) name = some oid := by
      unfold getOid
      rw [sget_sput_ne _ _ _ _ (hknm v2), sget_sdel_ne _ _ _ (hknm v1),
        sget_sput_ne _ _ _ _ (hknm v1)]
      exact hmap
    simp only [remove_meta, hg2]
    rw [sget_sput_self]
  · -- get after remove
    have hg3 : getOid (sdel (sput (sdel (sput sa (keyMeta oid mk) v1) (keyMeta oid mk))
        (keyMeta oid mk) v2) (keyMeta oid mk)) name = some oid := by
      unfold getOid
      rw [sget_sdel_ne _ _ _ (hknm v2), sget_sput_ne _ _ _ _ (hknm v2),
        sget_sdel_ne _ _ _ (hknm v1), sget_sput_ne _ _ _ _ (hknm v1)]
      exact hmap
    simp only [get_meta, hg3]
    rw [sget_sdel_self]
  · -- iterator soundness
    intro p hp
    cases hg : getOid s name with
    | none => simp [iter_meta, hg] at hp
    | some o =>
      have hpair : ((o : Nat), s) = (oid, sa) := by
        unfold getOrCreateOid at hoc
        rw [hg] at hoc
        exact hoc
      have hoo : o = oid := congrArg Prod.fst hpair
      subst hoo
      simp only [iter_meta, hg] at hp
      obtain ⟨e, he, hpe⟩ := List.mem_map.mp hp
      have hks := mem_keyrange_iff.mp he
      have hv := hwf.2 e hks.1
      obtain ⟨mk', hk⟩ := inRange_metaBounds ho hv hks.2
      have hp1 : p.1 = mk' := by
        rw [← hpe]
        show docMetaName e.1 = mk'
        rw [hk, docMetaName_keyMeta]
      have hp2 : p.2 = e.2 := by rw [← hpe]
      rw [hp1, hp2, ← hk, Prod.mk.eta]
      exact hks.1
  · -- iterator order
    cases hg : getOid s name with
    | none => simp [iter_meta, hg]
    | some o =>
      have hpair : ((o : Nat), s) = (oid, sa) := by
        unfold getOrCreateOid at hoc
        rw [hg] at hoc
        exact hoc
      have hoo : o = oid := congrArg Prod.fst hpair
      subst hoo
      simp only [iter_meta, hg]
      rw [List.pairwise_map]
      apply List.Pairwise.imp_of_mem ?_ (sorted_filter hwf.1 _)
      intro a b ha hb hab
      have hva := hwf.2 a (mem_keyrange_iff.mp ha).1
      have hvb := hwf.2 b (mem_keyrange_iff.mp hb).1
      obtain ⟨ma, hka⟩ := inRange_metaBounds ho hva (mem_keyrange_iff.mp ha).2
      obtain ⟨mb, hkb⟩ := inRange_metaBounds ho hvb (mem_keyrange_iff.mp hb).2
      show lexLt (docMetaName a.1) (docMetaName b.1) = true
      rw [hka, hkb, docMetaName_keyMeta, docMetaName_keyMeta]
      rw [hka, hkb, lexLt_keyMeta] at hab
      exact hab

/-- Witness for C8 at a store holding one mapped document and one metadata
entry under another meta key. -/
theorem c8_witness :
    WFStore [([0, 0, 100, 0], [0, 0, 0, 1]), ([0, 1, 0, 0, 0, 1, 4, 9, 0], [3])]
    ∧ getOrCreateOid [([0, 0, 100, 0], [0, 0, 0, 1]), ([0, 1, 0, 0, 0, 1, 4, 9, 0], [3])] [100]
        = (1, [([0, 0, 100, 0], [0, 0, 0, 1]), ([0, 1, 0, 0, 0, 1, 4, 9, 0], [3])])
    ∧ sget [([0, 0, 100, 0], [0, 0, 0, 1]), ([0, 1, 0, 0, 0, 1, 4, 9, 0], [3])]
        (keyMeta 1 [7]) = none
    ∧ (∃ s1 s2 s3,
        get_meta [([0, 0, 100, 0], [0, 0, 0, 1]), ([0, 1, 0, 0, 0, 1, 4, 9, 0], [3])]
          [100] [7] = .ok none
        ∧ insert_meta [([0, 0, 100, 0], [0, 0, 0, 1]), ([0, 1, 0, 0, 0, 1, 4, 9, 0], [3])]
            [100] [7] [11] = .ok (none, s1)
        ∧ insert_meta s1 [100] [7] [12] = .ok (some [11], s2)
        ∧ remove_meta s2 [100] [7] = .ok (some [12], s3)
        ∧ get_meta s3 [100] [7] = .ok none
        ∧ (∀ p ∈ iter_meta [([0, 0, 100, 0], [0, 0, 0, 1]),
              ([0, 1, 0, 0, 0, 1, 4, 9, 0], [3])] [100],
            (keyMeta 1 p.1, p.2)
              ∈ [([0, 0, 100, 0], [0, 0, 0, 1]), ([0, 1, 0, 0, 0, 1, 4, 9, 0], [3])])
        ∧ List.Pairwise (fun a b => lexLt a.1 b.1 = true)
            (iter_meta [([0, 0, 100, 0], [0, 0, 0, 1]),
              ([0, 1, 0, 0, 0, 1, 4, 9, 0], [3])] [100])) :=
  ⟨by decide, by decide, by decide,
   c8_meta [([0, 0, 100, 0], [0, 0, 0, 1]), ([0, 1, 0, 0, 0, 1, 4, 9, 0], [3])]
     [100] [7] [11] [12] 1
     [([0, 0, 100, 0], [0, 0, 0, 1]), ([0, 1, 0, 0, 0, 1, 4, 9, 0], [3])]
     (by decide) (by decide) (by decide)⟩

end YrsKv
